import Mathlib

/-!
Verification of the Assuan protocol engine of the pinentry client library.

The definitions below are a shallow embedding of the Rust sources:
  - src/assuan.rs : request encoding, response parsing (nom combinators),
    the response-aggregation loop, and connection teardown;
  - src/error.rs  : the error classifier.

Rust strings are modelled as lists of Unicode scalar values (Lean Char
matches Rust char exactly).  Byte-level operations (UTF-8 encoding,
percent-decoding, the 1000-byte line-length assertion) are modelled over
explicit UTF-8 byte lists.  A Rust panic (a failed expect or assert) is
modelled as a distinguished outcome, separate from a recoverable nom
parse error.
-/

namespace Pinentry

/-- Result of running a nom-style parser on an input.  ok carries the
remaining input and the produced value; fail is a recoverable nom error
(alt tries the next alternative); fatal models a Rust panic escaping from
a closure inside the parser (it aborts the whole parse). -/
inductive PResult (α : Type) where
  | ok (rest : List Char) (val : α)
  | fail
  | fatal
  deriving DecidableEq, Repr

/-- A nom parser over char lists. -/
abbrev Parser (α : Type) : Type := List Char → PResult α

/-- Possible response lines from an Assuan server (enum Response in
src/assuan.rs).  String payloads are char lists; the SecretString wrapper
of the DataLine payload has no observable content beyond the string. -/
inductive Response where
  | Ok (info : Option (List Char))
  | Err (code : Nat) (description : Option (List Char))
  | Information (keyword : List Char) (status : Option (List Char))
  | Comment (text : List Char)
  | DataLine (data : List Char)
  | Inquire (keyword : List Char) (parameters : Option (List Char))
  deriving DecidableEq, Repr

/-- nom bytes::complete::tag. -/
def tag (s : List Char) : Parser (List Char) := fun input =>
  if s.isPrefixOf input then PResult.ok (input.drop s.length) s else PResult.fail

/-- nom bytes::complete::is_not: longest nonempty prefix of characters
that are not in the avoid set; fails when that prefix is empty. -/
def is_not (avoid : List Char) : Parser (List Char) := fun input =>
  let m := input.takeWhile (fun c => !(avoid.contains c))
  if m.isEmpty then PResult.fail else PResult.ok (input.drop m.length) m

/-- nom character::complete::digit1: longest nonempty prefix of ASCII
decimal digits. -/
def digit1 : Parser (List Char) := fun input =>
  let m := input.takeWhile Char.isDigit
  if m.isEmpty then PResult.fail else PResult.ok (input.drop m.length) m

/-- nom character::complete::line_ending: recognizes a line-feed,
optionally preceded by a carriage-return. -/
def line_ending : Parser (List Char) := fun input =>
  if (['\r', '\n']).isPrefixOf input then PResult.ok (input.drop 2) ['\r', '\n']
  else if (['\n']).isPrefixOf input then PResult.ok (input.drop 1) ['\n']
  else PResult.fail

/-- nom combinator::map. -/
def pmap {α β : Type} (f : Parser α) (g : α → β) : Parser β := fun input =>
  match f input with
  | PResult.ok rest v => PResult.ok rest (g v)
  | PResult.fail => PResult.fail
  | PResult.fatal => PResult.fatal

/-- nom combinator::opt: on a recoverable error, succeeds with none and
restores the input. -/
def popt {α : Type} (f : Parser α) : Parser (Option α) := fun input =>
  match f input with
  | PResult.ok rest v => PResult.ok rest (some v)
  | PResult.fail => PResult.ok input none
  | PResult.fatal => PResult.fatal

/-- nom sequence::preceded. -/
def preceded {α β : Type} (f : Parser α) (g : Parser β) : Parser β := fun input =>
  match f input with
  | PResult.ok rest _ => g rest
  | PResult.fail => PResult.fail
  | PResult.fatal => PResult.fatal

/-- nom sequence::pair. -/
def ppair {α β : Type} (f : Parser α) (g : Parser β) : Parser (α × β) := fun input =>
  match f input with
  | PResult.ok rest v =>
    match g rest with
    | PResult.ok rest2 w => PResult.ok rest2 (v, w)
    | PResult.fail => PResult.fail
    | PResult.fatal => PResult.fatal
  | PResult.fail => PResult.fail
  | PResult.fatal => PResult.fatal

/-- nom sequence::terminated. -/
def terminated {α β : Type} (f : Parser α) (g : Parser β) : Parser α := fun input =>
  match f input with
  | PResult.ok rest v =>
    match g rest with
    | PResult.ok rest2 _ => PResult.ok rest2 v
    | PResult.fail => PResult.fail
    | PResult.fatal => PResult.fatal
  | PResult.fail => PResult.fail
  | PResult.fatal => PResult.fatal

/-- nom branch::alt for two alternatives; alt over a longer tuple is the
right-nested iteration of this. -/
def palt {α : Type} (f g : Parser α) : Parser α := fun input =>
  match f input with
  | PResult.fail => g input
  | r => r

/-- Value of a run of decimal digits, most significant first (the body
of str::parse for an unsigned integer radix-10 literal). -/
def digitsToNat (ds : List Char) : Nat :=
  ds.foldl (fun a c => 10 * a + (c.toNat - 48)) 0

/-- read::gpg_error_code from src/assuan.rs: map(digit1, ...) where the
closure runs code.parse::<u32>().expect(...) and truncates with
`full as u16`.  parse only fails here by overflowing u32 (digit1 has
already guaranteed a nonempty all-digit input), and the expect then
panics: modelled as fatal.  `full as u16` keeps the low 16 bits. -/
def gpg_error_code : Parser Nat := fun input =>
  match digit1 input with
  | PResult.ok rest ds =>
    if digitsToNat ds ≤ 4294967295 then
      PResult.ok rest (digitsToNat ds % 65536)
    else PResult.fatal
  | PResult.fail => PResult.fail
  | PResult.fatal => PResult.fatal

/-- The sub-expression opt(preceded(tag(" "), is_not("\r\n"))) that the
OK, ERR, S and INQUIRE alternatives of read::server_response share: an
optional space-separated free-text remainder. -/
def tailOptInfo : Parser (Option (List Char)) :=
  popt (preceded (tag ([' '])) (is_not (['\r', '\n'])))

/-- The OK alternative of read::server_response. -/
def okBranch : Parser Response :=
  preceded (tag (['O', 'K'])) (pmap tailOptInfo (fun params => Response.Ok params))

/-- The ERR alternative of read::server_response. -/
def errBranch : Parser Response :=
  preceded (tag (['E', 'R', 'R', ' ']))
    (pmap (ppair gpg_error_code tailOptInfo) (fun cd => Response.Err cd.1 cd.2))

/-- The shared shape of the S and INQUIRE alternatives: a keyword (no
spaces), then an optional space-separated remainder. -/
def kwBranch (t : List Char) (mk : List Char → Option (List Char) → Response) :
    Parser Response :=
  preceded (tag t)
    (pmap (ppair (is_not ([' ', '\r', '\n'])) tailOptInfo) (fun kv => mk kv.1 kv.2))

/-- The shared shape of the comment and data alternatives: a tag, then
the nonempty remainder of the line. -/
def restBranch (t : List Char) (mk : List Char → Response) : Parser Response :=
  preceded (tag t) (pmap (is_not (['\r', '\n'])) mk)

/-- read::server_response from src/assuan.rs: the six alternatives in
source order, terminated by a line ending. -/
def server_response : Parser Response :=
  terminated
    (palt okBranch
      (palt errBranch
        (palt (kwBranch (['S', ' ']) Response.Information)
          (palt (restBranch (['#', ' ']) Response.Comment)
            (palt (restBranch (['D', ' ']) Response.DataLine)
              (kwBranch (['I', 'N', 'Q', 'U', 'I', 'R', 'E', ' ']) Response.Inquire))))))
    line_ending

/-! Spec-side reference for the response grammar (claim C1 is a
refinement claim: the nom parser against the table of spec section 4.2).
Unlike the nom embedding above, which consumes the line left to right
with the terminator last, this reference follows the spec text: split
the line terminator off the end first, then match the six prefixes in
table order. -/

/-- Follows the wording of spec section 4.2: the line terminator
(line-feed, optionally preceded by carriage-return) must follow the
matched content.  Returns the content when the line is content followed
by a terminator and the content itself is free of CR and LF; none
otherwise. -/
def splitEol : List Char → Option (List Char)
  | [] => none
  | [c] => if c = '\n' then some [] else none
  | c :: c2 :: rest =>
    if c = '\r' then (if c2 = '\n' && rest.isEmpty then some [] else none)
    else if c = '\n' then none
    else (splitEol (c2 :: rest)).map (fun b => c :: b)

/-- Follows the wording of spec section 4.2 for the S and INQUIRE rows:
first whitespace-delimited token as keyword, optional remainder after a
further space. -/
def specKw (rest : List Char) (mk : List Char → Option (List Char) → Response) :
    Option Response :=
  let kw := rest.takeWhile (fun c => c ≠ ' ')
  if kw.isEmpty then none
  else
    match rest.drop kw.length with
    | [] => some (mk kw none)
    | ' ' :: st => if st.isEmpty then none else some (mk kw (some st))
    | _ => none

/-- Follows the wording of spec section 4.2: match the terminator-free
body of a line against the six row shapes in table order, extracting
the fields as the table specifies. -/
def specBody (body : List Char) : Option Response :=
  if body = ['O', 'K'] then some (Response.Ok none)
  else if (['O', 'K', ' ']).isPrefixOf body && !(body.drop 3).isEmpty then
    some (Response.Ok (some (body.drop 3)))
  else if (['E', 'R', 'R', ' ']).isPrefixOf body then
    let rest := body.drop 4
    let ds := rest.takeWhile Char.isDigit
    if ds.isEmpty then none
    else
      match rest.drop ds.length with
      | [] => some (Response.Err (digitsToNat ds % 65536) none)
      | ' ' :: desc =>
        if desc.isEmpty then none
        else some (Response.Err (digitsToNat ds % 65536) (some desc))
      | _ => none
  else if (['S', ' ']).isPrefixOf body then specKw (body.drop 2) Response.Information
  else if (['#', ' ']).isPrefixOf body then
    if (body.drop 2).isEmpty then none else some (Response.Comment (body.drop 2))
  else if (['D', ' ']).isPrefixOf body then
    if (body.drop 2).isEmpty then none else some (Response.DataLine (body.drop 2))
  else if (['I', 'N', 'Q', 'U', 'I', 'R', 'E', ' ']).isPrefixOf body then
    specKw (body.drop 8) Response.Inquire
  else none

/-- Follows the wording of spec section 4.2: a full input line parses
when it is a table-shaped body followed by the line terminator. -/
def specParseLine (l : List Char) : Option Response :=
  match splitEol l with
  | some body => specBody body
  | none => none

/-- An input line as produced by BufRead::read_line: the line-feed, if
present at all, is its last character. -/
def LineOk (l : List Char) : Prop := '\n' ∉ l.dropLast

instance (l : List Char) : Decidable (LineOk l) := by
  unfold LineOk
  infer_instance

/-- Characterization of the shared tail grammar piece tailOptInfo
followed by the line terminator, on the suffix of a line: some none for
a bare terminator, some (some m) for a space, nonempty info text m and
the terminator, none when the suffix has neither form. -/
def specTail (rest : List Char) : Option (Option (List Char)) :=
  match splitEol rest with
  | some [] => some none
  | some (' ' :: m) => if m.isEmpty then none else some (some m)
  | some _ => none
  | none => none

/-- Characterization of the keyword-then-tail grammar shared by the S
and INQUIRE alternatives, on the suffix of a line. -/
def specKwTail (rest : List Char) : Option (List Char × Option (List Char)) :=
  let kw := rest.takeWhile (fun c => !([' ', '\r', '\n'].contains c))
  if kw.isEmpty then none
  else (specTail (rest.drop kw.length)).map (fun o => (kw, o))

/-- Characterization of the code-then-tail grammar of the ERR
alternative, on the suffix of a line (ignoring the u32 overflow panic,
treated separately). -/
def specErrTail (rest : List Char) : Option (Nat × Option (List Char)) :=
  let ds := rest.takeWhile Char.isDigit
  if ds.isEmpty then none
  else (specTail (rest.drop ds.length)).map (fun o => (digitsToNat ds % 65536, o))

/-- Characterization of the rest-of-line grammar of the comment and
data alternatives, on the suffix of a line. -/
def specRest (rest : List Char) : Option (List Char) :=
  match splitEol rest with
  | some b => if b.isEmpty then none else some b
  | none => none

/-- The value specTail assigns to a suffix whose terminator has already
been split off. -/
def tailShape (bdrop : List Char) : Option (Option (List Char)) :=
  match bdrop with
  | [] => some none
  | ' ' :: st => if st.isEmpty then none else some (some st)
  | _ => none

/-- The inputs on which read::gpg_error_code panics: an ERR tag whose
digit run denotes a value too large for u32. -/
def errOverflow (l : List Char) : Bool :=
  (['E', 'R', 'R', ' ']).isPrefixOf l &&
    (let ds := (l.drop 4).takeWhile Char.isDigit
     !ds.isEmpty && 4294967295 < digitsToNat ds)

/-! UTF-8 and percent-decoding.

percent_encoding::percent_decode_str works on the UTF-8 bytes of its
input and the result is validated as UTF-8 by decode_utf8.  Both are
modelled over explicit byte lists. -/

/-- The UTF-8 encoding of one Unicode scalar value. -/
def utf8EncodeChar (c : Char) : List Nat :=
  let v := c.toNat
  if v < 128 then [v]
  else if v < 2048 then [192 + v / 64, 128 + v % 64]
  else if v < 65536 then [224 + v / 4096, 128 + (v / 64) % 64, 128 + v % 64]
  else [240 + v / 262144, 128 + (v / 4096) % 64, 128 + (v / 64) % 64, 128 + v % 64]

/-- The UTF-8 encoding of a string (str::as_bytes). -/
def utf8Encode (s : List Char) : List Nat :=
  match s with
  | [] => []
  | c :: rest => utf8EncodeChar c ++ utf8Encode rest

/-- Byte length of a string's UTF-8 encoding (str::as_bytes().len()). -/
def utf8Len (s : List Char) : Nat := (utf8Encode s).length

/-- Value of one ASCII hex digit byte, if it is one. -/
def hexVal (b : Nat) : Option Nat :=
  if 48 ≤ b && b ≤ 57 then some (b - 48)
  else if 97 ≤ b && b ≤ 102 then some (b - 87)
  else if 65 ≤ b && b ≤ 70 then some (b - 55)
  else none

/-- percent_encoding::percent_decode over bytes: a percent sign followed
by two hex digits becomes the denoted byte; an invalid escape is passed
through verbatim, continuing at the byte after the percent sign. -/
def percentDecodeBytes : List Nat → List Nat
  | [] => []
  | 37 :: h1 :: h2 :: rest =>
    match hexVal h1, hexVal h2 with
    | some x, some y => (16 * x + y) :: percentDecodeBytes rest
    | _, _ => 37 :: percentDecodeBytes (h1 :: h2 :: rest)
  | b :: rest => b :: percentDecodeBytes rest

/-- One step of strict UTF-8 decoding (str::from_utf8): decode the first
scalar value of the byte list, returning its code point and the remaining
bytes, or none on a bad lead or continuation byte, an overlong encoding, a
surrogate, or a value past the Unicode maximum. -/
def utf8DecodeOne : List Nat → Option (Nat × List Nat) := fun bytes =>
  match bytes with
  | [] => none
  | b :: rest =>
    if b < 128 then some (b, rest)
    else if b < 194 then none
    else if b < 224 then
      match rest with
      | c1 :: rest2 =>
        if 128 ≤ c1 ∧ c1 < 192 then
          some ((b - 192) * 64 + (c1 - 128), rest2)
        else none
      | [] => none
    else if b < 240 then
      match rest with
      | c1 :: c2 :: rest2 =>
        if (128 ≤ c1 ∧ c1 < 192) ∧ (128 ≤ c2 ∧ c2 < 192) ∧
            ¬ (b = 224 ∧ c1 < 160) ∧ ¬ (b = 237 ∧ 160 ≤ c1) then
          some ((b - 224) * 4096 + (c1 - 128) * 64 + (c2 - 128), rest2)
        else none
      | _ => none
    else if b < 245 then
      match rest with
      | c1 :: c2 :: c3 :: rest2 =>
        if (128 ≤ c1 ∧ c1 < 192) ∧ (128 ≤ c2 ∧ c2 < 192) ∧ (128 ≤ c3 ∧ c3 < 192) ∧
            ¬ (b = 240 ∧ c1 < 144) ∧ ¬ (b = 244 ∧ 144 ≤ c1) then
          some ((b - 240) * 262144 + (c1 - 128) * 4096 +
            (c2 - 128) * 64 + (c3 - 128), rest2)
        else none
      | _ => none
    else none

/-- The strict UTF-8 decoding loop, with a fuel argument bounding the
number of scalars decoded; each scalar consumes at least one byte, so a
fuel of the byte count always suffices. -/
def utf8DecodeGo : Nat → List Nat → Option (List Char)
  | _, [] => some []
  | 0, _ :: _ => none
  | fuel + 1, b :: rest =>
    match utf8DecodeOne (b :: rest) with
    | some (v, rest2) => Option.map (fun s => Char.ofNat v :: s) (utf8DecodeGo fuel rest2)
    | none => none

/-- Strict UTF-8 decoding (str::from_utf8): rejects bad lead or
continuation bytes, overlong encodings, surrogates and values past the
Unicode maximum. -/
def utf8Decode (bytes : List Nat) : Option (List Char) :=
  utf8DecodeGo bytes.length bytes

/-- percent_decode_str(s).decode_utf8() from the DataLine arm of
Connection::read_response: percent-decode the UTF-8 bytes of the input
and re-validate the result as UTF-8. -/
def percentDecode (s : List Char) : Option (List Char) :=
  utf8Decode (percentDecodeBytes (utf8Encode s))

/-! The request encoder (encode_request in src/assuan.rs). -/

/-- The escaping applied per parameter character by encode_request:
line-feed, carriage-return and the percent sign are percent-escaped,
everything else passes through. -/
def escapeChar (c : Char) : List Char :=
  if c = '\n' then ['%', '0', 'A']
  else if c = '\r' then ['%', '0', 'D']
  else if c = '%' then ['%', '2', '5']
  else [c]

/-- Escaped form of a whole parameter string. -/
def escapeParams : List Char → List Char
  | [] => []
  | c :: rest => escapeChar c ++ escapeParams rest

/-- The line built by encode_request before the length assertion:
command, then optionally a space and the escaped parameters; a trailing
backslash (a trailing 0x5C byte is always the char, since 0x5C is never
a non-initial byte of a UTF-8 sequence) is replaced by its escape; then
the terminating line-feed. -/
def encode_request_raw (command : List Char) (parameters : Option (List Char)) :
    List Char :=
  let buf := command ++ (match parameters with
    | some p => ' ' :: escapeParams p
    | none => [])
  let buf := if buf.getLast? = some '\\' then buf.dropLast ++ ['%', '5', 'C'] else buf
  buf ++ ['\n']

/-- encode_request from src/assuan.rs.  The assert that the encoded line
is at most 1000 bytes is modelled as returning none (a Rust panic) when
it fires. -/
def encode_request (command : List Char) (parameters : Option (List Char)) :
    Option (List Char) :=
  let buf := encode_request_raw command parameters
  if utf8Len buf ≤ 1000 then some buf else none

/-! The error classifier (src/error.rs). -/

def GPG_ERR_TIMEOUT : Nat := 62
def GPG_ERR_CANCELED : Nat := 99
def GPG_ERR_NOT_CONFIRMED : Nat := 114

/-- struct GpgError from src/error.rs. -/
structure GpgError where
  code : Nat
  description : Option (List Char)
  deriving DecidableEq, Repr

/-- enum Error from src/error.rs.  The payloads of the Io and Encoding
variants (an io::Error and a Utf8Error) have no bearing on any claim and
are not modelled. -/
inductive Error where
  | Cancelled
  | Timeout
  | Io
  | Gpg (e : GpgError)
  | Encoding
  deriving DecidableEq, Repr

/-- Error::from_parts from src/error.rs. -/
def Error.from_parts (code : Nat) (description : Option (List Char)) : Error :=
  if code = GPG_ERR_TIMEOUT then Error.Timeout
  else if code = GPG_ERR_CANCELED then Error.Cancelled
  else Error.Gpg { code := code, description := description }

/-! The response-aggregation loop (Connection::read_response in
src/assuan.rs).  The input stream is modelled as the list of lines that
successive read_line calls deliver; an empty list stands for end of
input, where read_line leaves the (just zeroized, hence empty) line
buffer unchanged and parsing the empty line fails.

Zeroization is tracked as an event trace.  secrecy::SecretString
guarantees that a dropped secret buffer is overwritten, so dropping the
accumulated Option of SecretString with a value in it is itself a
destruction event.  Events for temporaries local to one DataLine
iteration (the raw data_line secret and the decoded copy, both likewise
zeroized by the source) are not tracked. -/

/-- Observable zeroization events of one read_response call. -/
inductive Ev where
  | zeroizeLine
  | zeroizeData
  | dropSecret
  deriving DecidableEq, Repr

/-- Outcome of one read_response call.  panicked records a Rust panic
escaping from the parser. -/
inductive ReadOutcome where
  | ok (data : Option (List Char))
  | err (e : Error)
  | panicked
  deriving DecidableEq, Repr

/-- The destruction events of dropping the accumulated buffer, when one
is held. -/
def dropEv (data : Option (List Char)) : List Ev :=
  match data with
  | some _ => [Ev.dropSecret]
  | none => []

/-- One pass of the loop in Connection::read_response, with the lines
still unread and the accumulated data as explicit state.  Every
iteration begins with line.zeroize().  A parse failure is converted to
an io::Error and propagated (dropping the accumulated secret); Ok
returns the accumulated data after zeroizing the line once more; Err
zeroizes the line and then explicitly zeroizes the accumulated data
before returning the classified error; Comment, Information and Inquire
lines are only logged; a DataLine is percent-decoded (a UTF-8 failure
propagates as an encoding error) and appended to the accumulated data,
the superseded buffer being dropped (and thereby zeroized). -/
def read_response_go : List (List Char) → Option (List Char) → ReadOutcome × List Ev
  | [], data => (ReadOutcome.err Error.Io, Ev.zeroizeLine :: dropEv data)
  | line :: restLines, data =>
    match server_response line with
    | PResult.fail => (ReadOutcome.err Error.Io, Ev.zeroizeLine :: dropEv data)
    | PResult.fatal => (ReadOutcome.panicked, Ev.zeroizeLine :: dropEv data)
    | PResult.ok _ r =>
      match r with
      | Response.Ok _ => (ReadOutcome.ok data, [Ev.zeroizeLine, Ev.zeroizeLine])
      | Response.Err code description =>
        (ReadOutcome.err (Error.from_parts code description),
          Ev.zeroizeLine :: Ev.zeroizeLine ::
            (match data with | some _ => [Ev.zeroizeData] | none => []))
      | Response.Comment _ =>
        let r := read_response_go restLines data
        (r.1, Ev.zeroizeLine :: r.2)
      | Response.DataLine d =>
        match percentDecode d with
        | none => (ReadOutcome.err Error.Encoding, Ev.zeroizeLine :: dropEv data)
        | some dec =>
          let r := read_response_go restLines (some (data.getD [] ++ dec))
          (r.1, Ev.zeroizeLine :: (dropEv data ++ r.2))
      | Response.Information _ _ =>
        let r := read_response_go restLines data
        (r.1, Ev.zeroizeLine :: r.2)
      | Response.Inquire _ _ =>
        let r := read_response_go restLines data
        (r.1, Ev.zeroizeLine :: r.2)

/-- Connection::read_response: the loop started with no accumulated
data. -/
def read_response (lines : List (List Char)) : ReadOutcome × List Ev :=
  read_response_go lines none

/-- Lines that read_response consumes without ending the cycle: comment,
information and inquire lines, and data lines whose content
percent-decodes to valid UTF-8. -/
def isForward (l : List Char) : Bool :=
  match server_response l with
  | PResult.ok _ (Response.Comment _) => true
  | PResult.ok _ (Response.Information _ _) => true
  | PResult.ok _ (Response.Inquire _ _) => true
  | PResult.ok _ (Response.DataLine d) => (percentDecode d).isSome
  | _ => false

/-- Lines that read_response only logs: comment and information
lines. -/
def isIgnorable (l : List Char) : Bool :=
  match server_response l with
  | PResult.ok _ (Response.Comment _) => true
  | PResult.ok _ (Response.Information _ _) => true
  | _ => false

/-- The accumulated-data state after the loop has consumed one more
line without ending the cycle. -/
def accumStep (acc : Option (List Char)) (l : List Char) : Option (List Char) :=
  match server_response l with
  | PResult.ok _ (Response.DataLine d) =>
    match percentDecode d with
    | some dec => some (acc.getD [] ++ dec)
    | none => acc
  | _ => acc

/-- The accumulated-data state after the loop has consumed a list of
non-terminal lines. -/
def accumAfter (pre : List (List Char)) : Option (List Char) :=
  pre.foldl accumStep none

/-! Connection teardown (impl Drop for Connection in src/assuan.rs). -/

/-- The observable actions a Connection teardown could take. -/
inductive TeardownStep where
  | sendRequest (command : List Char) (parameters : Option (List Char))
  | waitWithGrace (millis : Nat)
  | kill
  deriving DecidableEq, Repr

/-- impl Drop for Connection: the whole body is the single statement
sending BYE with its result discarded (`let _ =`).  The struct
Connection owns only the child's stdin and buffered stdout (src/assuan.rs
lines 46-49); it does not retain the child-process handle.  Modelled as
the list of teardown steps taken together with the error surfaced to the
caller, as a function of however the BYE request turns out. -/
def connectionDrop (_byeOutcome : ReadOutcome) : List TeardownStep × Option Error :=
  ([TeardownStep.sendRequest (['B', 'Y', 'E']) none], none)

/-- The verdict the spec grammar of section 4.2 assigns to an input
line, in the result type of the embedded parser: the extracted variant
with the whole line consumed, or a decode failure. -/
def specVerdict (l : List Char) : PResult Response :=
  match specParseLine l with
  | some r => PResult.ok [] r
  | none => PResult.fail

/-- The trailing-backslash rule of spec section 4.1, applied to the
escaped parameter text: a trailing backslash is replaced by its percent
escape. -/
def fixTrailingBackslash (e : List Char) : List Char :=
  if e.getLast? = some '\\' then e.dropLast ++ ['%', '5', 'C'] else e

/-- The data portion of an encoded request line with an empty command
keyword: the chars between the separating space and the terminating
line-feed. -/
def requestData (p : List Char) : List Char :=
  ((encode_request_raw [] (some p)).drop 1).dropLast

/-! Helper lemmas about lists, the terminator split and line shape. -/

theorem drop_takeWhile_length (p : Char → Bool) (l : List Char) :
    l.drop (l.takeWhile p).length = l.dropWhile p := by
  have h := List.drop_left (l.takeWhile p) (l.dropWhile p)
  rwa [List.takeWhile_append_dropWhile] at h

theorem takeWhile_all_append (p : Char → Bool) (m r : List Char)
    (h : ∀ c ∈ m, p c = true) : (m ++ r).takeWhile p = m ++ r.takeWhile p := by
  induction m with
  | nil => simp
  | cons c t ih =>
    simp only [List.cons_append, List.takeWhile_cons]
    rw [h c (by simp)]
    simp [ih (fun x hx => h x (by simp [hx]))]

theorem dropWhile_head_false (p : Char → Bool) (l : List Char) (c : Char)
    (t : List Char) (h : l.dropWhile p = c :: t) : p c = false := by
  have h2 := List.head?_dropWhile_not p l
  rw [h] at h2
  simpa using h2

theorem splitEol_cons (c : Char) (l : List Char) (h : c ≠ '\r') (h2 : c ≠ '\n') :
    splitEol (c :: l) = (splitEol l).map (fun b => c :: b) := by
  cases l with
  | nil => simp [splitEol, h2]
  | cons c2 t => simp [splitEol, h, h2]

theorem splitEol_none_of_not_mem (l : List Char) (h : '\n' ∉ l) :
    splitEol l = none := by
  induction l with
  | nil => rfl
  | cons c t ih =>
    have hc : c ≠ '\n' := fun e => h (by simp [e])
    by_cases hr : c = '\r'
    · subst hr
      cases t with
      | nil => simp [splitEol]
      | cons c2 t2 =>
        have h2 : c2 ≠ '\n' := fun e => h (by simp [e])
        simp [splitEol, h2]
    · rw [splitEol_cons c t hr hc, ih (fun e => h (List.mem_cons_of_mem _ e))]
      rfl

theorem splitEol_append_lf (m : List Char) (h : '\n' ∉ m) (h2 : '\r' ∉ m) :
    splitEol (m ++ ['\n']) = some m := by
  induction m with
  | nil => rfl
  | cons c t ih =>
    have hc : c ≠ '\n' := fun e => h (by simp [e])
    have hcr : c ≠ '\r' := fun e => h2 (by simp [e])
    rw [List.cons_append, splitEol_cons c _ hcr hc,
      ih (fun e => h (List.mem_cons_of_mem _ e)) (fun e => h2 (List.mem_cons_of_mem _ e))]
    rfl

theorem splitEol_append_crlf (m : List Char) (h : '\n' ∉ m) (h2 : '\r' ∉ m) :
    splitEol (m ++ ['\r', '\n']) = some m := by
  induction m with
  | nil => rfl
  | cons c t ih =>
    have hc : c ≠ '\n' := fun e => h (by simp [e])
    have hcr : c ≠ '\r' := fun e => h2 (by simp [e])
    rw [List.cons_append, splitEol_cons c _ hcr hc,
      ih (fun e => h (List.mem_cons_of_mem _ e)) (fun e => h2 (List.mem_cons_of_mem _ e))]
    rfl

theorem splitEol_cons_lf (l : List Char) :
    splitEol ('\n' :: l) = if l = [] then some [] else none := by
  cases l with
  | nil => simp [splitEol]
  | cons c2 t => simp [splitEol]

theorem splitEol_cons_cr (l : List Char) :
    splitEol ('\r' :: l) = if l = ['\n'] then some [] else none := by
  cases l with
  | nil => simp [splitEol]
  | cons c2 t =>
    by_cases h2 : c2 = '\n'
    · subst h2
      cases t with
      | nil => simp [splitEol]
      | cons c3 t3 => simp [splitEol]
    · simp [splitEol, h2]

theorem splitEol_sound (l b : List Char) (h : splitEol l = some b) :
    ('\r' ∉ b ∧ '\n' ∉ b) ∧ (l = b ++ ['\n'] ∨ l = b ++ ['\r', '\n']) := by
  induction l generalizing b with
  | nil => simp [splitEol] at h
  | cons c t ih =>
    by_cases hr : c = '\r'
    · subst hr
      rw [splitEol_cons_cr] at h
      split at h
      · rename_i ht
        injection h with h
        subst h
        subst ht
        simp
      · exact absurd h (by simp)
    · by_cases hn : c = '\n'
      · subst hn
        rw [splitEol_cons_lf] at h
        split at h
        · rename_i ht
          injection h with h
          subst h
          subst ht
          simp
        · exact absurd h (by simp)
      · rw [splitEol_cons c t hr hn] at h
        cases hsplit : splitEol t with
        | none => rw [hsplit] at h; exact absurd h (by simp)
        | some b2 =>
          rw [hsplit] at h
          simp at h
          subst h
          obtain ⟨⟨hb1, hb2⟩, hdec⟩ := ih b2 hsplit
          refine ⟨⟨?_, ?_⟩, ?_⟩
          · simp only [List.mem_cons]
            rintro (e | e)
            · exact hr e.symm
            · exact hb1 e
          · simp only [List.mem_cons]
            rintro (e | e)
            · exact hn e.symm
            · exact hb2 e
          · rcases hdec with hd | hd
            · exact Or.inl (by rw [List.cons_append, ← hd])
            · exact Or.inr (by rw [List.cons_append, ← hd])

theorem LineOk.tail {c : Char} {l : List Char} (h : LineOk (c :: l)) : LineOk l := by
  unfold LineOk at *
  cases l with
  | nil => simp
  | cons c2 t =>
    intro e
    exact h (by simp [List.dropLast]; exact Or.inr (by simpa using e))

theorem LineOk_append {a b : List Char} (h : LineOk (a ++ b)) : LineOk b := by
  induction a with
  | nil => exact h
  | cons c t ih => exact ih (LineOk.tail (by simpa using h))

theorem LineOk_lf_append {a t : List Char} (h : LineOk (a ++ '\n' :: t)) :
    t = [] := by
  have h2 : LineOk ('\n' :: t) := LineOk_append h
  cases t with
  | nil => rfl
  | cons c t2 =>
    exfalso
    unfold LineOk at h2
    exact h2 (by simp [List.dropLast])

/-! Helper lemmas about the parser combinators. -/

theorem tag_append (s r : List Char) : tag s (s ++ r) = PResult.ok r s := by
  simp [tag, List.isPrefixOf_iff_prefix.mpr (List.prefix_append s r), List.drop_left]

theorem tag_eq_ok {s l r v : List Char} (h : tag s l = PResult.ok r v) :
    v = s ∧ l = s ++ r := by
  unfold tag at h
  split at h
  · rename_i hpre
    obtain ⟨t, ht⟩ := List.isPrefixOf_iff_prefix.mp hpre
    injection h with h1 h2
    refine ⟨h2.symm, ?_⟩
    rw [← ht] at h1 ⊢
    rw [List.drop_left] at h1
    rw [← h1]
  · exact absurd h (by simp)

theorem popt_ne_fail {α : Type} (f : Parser α) (l : List Char) :
    popt f l ≠ PResult.fail := by
  unfold popt
  cases f l <;> simp

theorem is_not_eq (avoid l : List Char) : is_not avoid l =
    (if (l.takeWhile (fun c => !(avoid.contains c))).isEmpty then PResult.fail
     else PResult.ok (l.dropWhile (fun c => !(avoid.contains c)))
       (l.takeWhile (fun c => !(avoid.contains c)))) := by
  show (if (l.takeWhile (fun c => !(avoid.contains c))).isEmpty then PResult.fail
     else PResult.ok (l.drop (l.takeWhile (fun c => !(avoid.contains c))).length)
       (l.takeWhile (fun c => !(avoid.contains c)))) = _
  rw [drop_takeWhile_length]

theorem digit1_eq (l : List Char) : digit1 l =
    (if (l.takeWhile Char.isDigit).isEmpty then PResult.fail
     else PResult.ok (l.dropWhile Char.isDigit) (l.takeWhile Char.isDigit)) := by
  show (if (l.takeWhile Char.isDigit).isEmpty then PResult.fail
     else PResult.ok (l.drop (l.takeWhile Char.isDigit).length)
       (l.takeWhile Char.isDigit)) = _
  rw [drop_takeWhile_length]

theorem takeWhile_not_contains {avoid l : List Char} {c : Char} (hc : c ∈ avoid) :
    c ∉ l.takeWhile (fun x => !(avoid.contains x)) := by
  intro hm
  have h2 := List.mem_takeWhile_imp hm
  simp at h2
  exact h2 hc

theorem splitEol_cr_block (m0 : List Char) (c2 : Char) (t2 : List Char)
    (h1 : '\n' ∉ m0) (h2 : '\r' ∉ m0) (h3 : c2 ≠ '\n') :
    splitEol (m0 ++ '\r' :: c2 :: t2) = none := by
  induction m0 with
  | nil =>
    rw [List.nil_append, splitEol_cons_cr]
    rw [if_neg (by intro e; injection e with e1 e2; exact h3 e1)]
  | cons c t ih =>
    have hc : c ≠ '\n' := fun e => h1 (by simp [e])
    have hcr : c ≠ '\r' := fun e => h2 (by simp [e])
    rw [List.cons_append, splitEol_cons c _ hcr hc,
      ih (fun e => h1 (List.mem_cons_of_mem _ e)) (fun e => h2 (List.mem_cons_of_mem _ e))]
    rfl

theorem specTail_cons_other (c : Char) (r2 : List Char) (h1 : c ≠ ' ')
    (h2 : c ≠ '\r') (h3 : c ≠ '\n') : specTail (c :: r2) = none := by
  unfold specTail
  rw [splitEol_cons c r2 h2 h3]
  cases splitEol r2 with
  | none => rfl
  | some b =>
    rw [show Option.map (fun b => c :: b) (some b) = some (c :: b) from rfl]
    split
    · rename_i heq
      exact absurd heq (by simp)
    · rename_i m heq
      injection heq with heq2
      injection heq2 with heq3
      exact absurd heq3 h1
    · rfl
    · rfl

/-- The shared tail piece of the grammar, followed by the line
terminator, behaves on any line suffix exactly as specTail describes. -/
theorem tailRun_eq (rest : List Char) (h : LineOk rest) :
    terminated tailOptInfo line_ending rest =
      (match specTail rest with
       | some o => PResult.ok [] o
       | none => PResult.fail) := by
  cases rest with
  | nil => rfl
  | cons c r2 =>
    by_cases hsp : c = ' '
    · subst hsp
      have htag : tag [' '] (' ' :: r2) = PResult.ok r2 [' '] := tag_append [' '] r2
      cases hm : r2.takeWhile (fun x => !((['\r', '\n']).contains x)) with
      | nil =>
        have hinner : is_not (['\r', '\n']) r2 = PResult.fail := by
          rw [is_not_eq, hm]
          rfl
        have hlhs : terminated tailOptInfo line_ending (' ' :: r2) = PResult.fail := by
          unfold terminated tailOptInfo popt preceded
          simp only [htag, hinner]
          simp [line_ending, List.isPrefixOf]
        rw [hlhs]
        unfold specTail
        rw [splitEol_cons ' ' r2 (by decide) (by decide)]
        cases r2 with
        | nil => rfl
        | cons c2 t =>
          have hc2' : c2 = '\r' ∨ c2 = '\n' := by
            by_cases hb : (!((['\r', '\n']).contains c2)) = true
            · rw [List.takeWhile_cons, if_pos hb] at hm
              exact absurd hm (by simp)
            · have hcon : (['\r', '\n']).contains c2 = true := by
                cases hcontains : (['\r', '\n']).contains c2
                · rw [hcontains] at hb
                  simp at hb
                · rfl
              simpa using hcon
          rcases hc2' with rfl | rfl
          · rw [splitEol_cons_cr]
            by_cases ht : t = ['\n']
            · rw [if_pos ht]
              rfl
            · rw [if_neg ht]
              rfl
          · rw [splitEol_cons_lf]
            have ht : t = [] := LineOk_lf_append (a := [' ']) h
            subst ht
            rfl
      | cons mc mt =>
        obtain ⟨r3, hdw⟩ : ∃ r3, r2.dropWhile (fun x => !((['\r', '\n']).contains x)) = r3 :=
          ⟨_, rfl⟩
        have hinner : is_not (['\r', '\n']) r2 = PResult.ok r3 (mc :: mt) := by
          rw [is_not_eq, hm, hdw]
          rfl
        have hr2 : r2 = (mc :: mt) ++ r3 := by
          conv_lhs => rw [← List.takeWhile_append_dropWhile
            (fun x => !((['\r', '\n']).contains x)) r2]
          rw [hm, hdw]
        have hlf : '\n' ∉ (mc :: mt) := by
          rw [← hm]
          exact takeWhile_not_contains (by simp)
        have hcr : '\r' ∉ (mc :: mt) := by
          rw [← hm]
          exact takeWhile_not_contains (by simp)
        have hlhs : terminated tailOptInfo line_ending (' ' :: r2) =
            (match line_ending r3 with
             | PResult.ok rr _ => PResult.ok rr (some (mc :: mt))
             | PResult.fail => PResult.fail
             | PResult.fatal => PResult.fatal) := by
          unfold terminated tailOptInfo popt preceded
          simp only [htag, hinner]
          cases line_ending r3 <;> rfl
        rw [hlhs]
        unfold specTail
        rw [splitEol_cons ' ' r2 (by decide) (by decide)]
        cases r3 with
        | nil =>
          rw [List.append_nil] at hr2
          rw [hr2, splitEol_none_of_not_mem (mc :: mt) hlf]
          rfl
        | cons d dt =>
          have hdhead : d = '\r' ∨ d = '\n' := by
            have hfalse := dropWhile_head_false _ r2 d dt hdw
            by_cases e : d = '\r'
            · exact Or.inl e
            · refine Or.inr ?_
              simp [e] at hfalse
              exact hfalse
          rcases hdhead with rfl | rfl
          · cases dt with
            | nil =>
              have hnone : splitEol r2 = none := by
                rw [hr2]
                exact splitEol_none_of_not_mem _ (by
                  intro hmem
                  rcases List.mem_append.mp hmem with hx | hx
                  · exact hlf hx
                  · simp at hx)
              rw [hnone]
              simp [line_ending, List.isPrefixOf]
            | cons d2 dt2 =>
              by_cases hd2 : d2 = '\n'
              · subst hd2
                have hdt2 : dt2 = [] := by
                  refine LineOk_lf_append (a := ' ' :: ((mc :: mt) ++ ['\r'])) ?_
                  have heq : ' ' :: ((mc :: mt) ++ ['\r']) ++ '\n' :: dt2 = ' ' :: r2 := by
                    rw [hr2]
                    simp
                  rw [heq]
                  exact h
                subst hdt2
                have hsome : splitEol r2 = some (mc :: mt) := by
                  rw [hr2]
                  exact splitEol_append_crlf (mc :: mt) hlf hcr
                rw [hsome]
                simp [line_ending, List.isPrefixOf]
              · have hnone : splitEol r2 = none := by
                  rw [hr2]
                  exact splitEol_cr_block (mc :: mt) d2 dt2 hlf hcr hd2
                rw [hnone]
                have hle : line_ending ('\r' :: d2 :: dt2) = PResult.fail := by
                  simp [line_ending, List.isPrefixOf, hd2]
                  exact fun e => hd2 e.symm
                rw [hle]
                rfl
          · have hdt : dt = [] := by
              refine LineOk_lf_append (a := ' ' :: (mc :: mt)) ?_
              have heq : ' ' :: (mc :: mt) ++ '\n' :: dt = ' ' :: r2 := by
                rw [hr2]
                simp
              rw [heq]
              exact h
            subst hdt
            have hsome : splitEol r2 = some (mc :: mt) := by
              rw [hr2]
              exact splitEol_append_lf (mc :: mt) hlf hcr
            rw [hsome]
            simp [line_ending, List.isPrefixOf]
    · have htagf : tag [' '] (c :: r2) = PResult.fail := by
        simp [tag, List.isPrefixOf]
        intro e
        exact absurd e.symm hsp
      have hlhs : terminated tailOptInfo line_ending (c :: r2) =
          (match line_ending (c :: r2) with
           | PResult.ok r3 _ => PResult.ok r3 none
           | PResult.fail => PResult.fail
           | PResult.fatal => PResult.fatal) := by
        unfold terminated tailOptInfo popt preceded
        simp only [htagf]
        cases line_ending (c :: r2) <;> rfl
      rw [hlhs]
      by_cases hlf : c = '\n'
      · subst hlf
        have hr2nil : r2 = [] := LineOk_lf_append (a := []) h
        subst hr2nil
        rfl
      · by_cases hcr : c = '\r'
        · subst hcr
          cases r2 with
          | nil => rfl
          | cons c2 t =>
            by_cases hc2 : c2 = '\n'
            · subst hc2
              have ht : t = [] := by
                refine LineOk_lf_append (a := ['\r']) ?_
                exact h
              subst ht
              rfl
            · have hle : line_ending ('\r' :: c2 :: t) = PResult.fail := by
                simp [line_ending, List.isPrefixOf, hc2]
                exact fun e => hc2 e.symm
              rw [hle]
              unfold specTail
              rw [splitEol_cons_cr]
              rw [if_neg (by intro e; injection e with e1 e2; exact hc2 e1)]
        · have hle : line_ending (c :: r2) = PResult.fail := by
            simp [line_ending, List.isPrefixOf, hcr, hlf]
            rw [if_neg (by rintro ⟨e, _⟩; exact hcr e.symm), if_neg (fun e => hlf e.symm)]
          rw [hle, specTail_cons_other c r2 hsp hcr hlf]

theorem LineOk_cons {c : Char} {l : List Char} (hc : c ≠ '\n') (h : LineOk l) :
    LineOk (c :: l) := by
  unfold LineOk at *
  cases l with
  | nil => simp
  | cons c2 t =>
    rw [List.dropLast_cons₂]
    simp only [List.mem_cons]
    rintro (e | e)
    · exact hc e.symm
    · exact h e

theorem terminated_ppair {α β γ : Type} (A : Parser α) (B : Parser β)
    (le : Parser γ) (input : List Char) :
    terminated (ppair A B) le input =
      (match A input with
       | PResult.ok r v =>
         (match terminated B le r with
          | PResult.ok r2 w => PResult.ok r2 (v, w)
          | PResult.fail => PResult.fail
          | PResult.fatal => PResult.fatal)
       | PResult.fail => PResult.fail
       | PResult.fatal => PResult.fatal) := by
  unfold terminated ppair
  cases A input with
  | ok r v =>
    dsimp only
    cases B r with
    | ok r2 w =>
      dsimp only
      cases le r2 <;> rfl
    | fail => rfl
    | fatal => rfl
  | fail => rfl
  | fatal => rfl

theorem is_not_ne_fatal (avoid l : List Char) : is_not avoid l ≠ PResult.fatal := by
  rw [is_not_eq]
  split <;> simp

theorem line_ending_ne_fatal (l : List Char) : line_ending l ≠ PResult.fatal := by
  unfold line_ending
  split
  · simp
  · split <;> simp

theorem gpg_error_code_eq (l : List Char) : gpg_error_code l =
    (if (l.takeWhile Char.isDigit).isEmpty then PResult.fail
     else if digitsToNat (l.takeWhile Char.isDigit) ≤ 4294967295 then
       PResult.ok (l.dropWhile Char.isDigit) (digitsToNat (l.takeWhile Char.isDigit) % 65536)
     else PResult.fatal) := by
  unfold gpg_error_code
  rw [digit1_eq]
  by_cases hemp : (l.takeWhile Char.isDigit).isEmpty = true
  · simp [hemp]
  · simp [hemp]

/-- The comment and data rest-of-line piece, followed by the line
terminator, behaves on any line suffix exactly as specRest describes. -/
theorem restTail_eq (rest : List Char) (h : LineOk rest) :
    terminated (is_not (['\r', '\n'])) line_ending rest =
      (match specRest rest with
       | some m => PResult.ok [] m
       | none => PResult.fail) := by
  have htr := tailRun_eq (' ' :: rest) (LineOk_cons (by decide) h)
  have hlhs : terminated tailOptInfo line_ending (' ' :: rest) =
      (match terminated (is_not (['\r', '\n'])) line_ending rest with
       | PResult.ok r m => PResult.ok r (some m)
       | PResult.fail => PResult.fail
       | PResult.fatal => PResult.fatal) := by
    unfold terminated tailOptInfo popt preceded
    rw [show tag [' '] (' ' :: rest) = PResult.ok rest [' '] from tag_append [' '] rest]
    dsimp only
    cases is_not (['\r', '\n']) rest with
    | ok r m =>
      dsimp only
      cases line_ending r <;> rfl
    | fail =>
      dsimp only
      simp [line_ending, List.isPrefixOf]
    | fatal => rfl
  have hspec : specTail (' ' :: rest) = Option.map some (specRest rest) := by
    unfold specTail specRest
    rw [splitEol_cons ' ' rest (by decide) (by decide)]
    cases splitEol rest with
    | none => rfl
    | some b =>
      cases b with
      | nil => rfl
      | cons bb bt => rfl
  rw [hlhs, hspec] at htr
  cases hrt : terminated (is_not (['\r', '\n'])) line_ending rest with
  | ok r m =>
    rw [hrt] at htr
    cases hsr : specRest rest with
    | none =>
      rw [hsr] at htr
      exact absurd htr (by simp)
    | some m2 =>
      rw [hsr] at htr
      simp at htr
      rw [htr.1, htr.2]
  | fail =>
    rw [hrt] at htr
    cases hsr : specRest rest with
    | none => rfl
    | some m2 =>
      rw [hsr] at htr
      exact absurd htr (by simp)
  | fatal => exact absurd hrt (by
      unfold terminated
      cases hin : is_not (['\r', '\n']) rest with
      | ok r m =>
        dsimp only
        cases hle : line_ending r with
        | ok a b => simp
        | fail => simp
        | fatal => exact fun _ => absurd hle (line_ending_ne_fatal r)
      | fail => simp
      | fatal => exact absurd hin (is_not_ne_fatal _ _))

/-- The keyword-then-tail piece of the S and INQUIRE alternatives,
followed by the line terminator, behaves on any line suffix exactly as
specKwTail describes. -/
theorem kwTail_eq (rest : List Char) (h : LineOk rest) :
    terminated (ppair (is_not ([' ', '\r', '\n'])) tailOptInfo) line_ending rest =
      (match specKwTail rest with
       | some kv => PResult.ok [] kv
       | none => PResult.fail) := by
  rw [terminated_ppair]
  cases hin : is_not ([' ', '\r', '\n']) rest with
  | fatal => exact absurd hin (is_not_ne_fatal _ _)
  | fail =>
    rw [is_not_eq] at hin
    split at hin
    · rename_i hemp
      unfold specKwTail
      rw [if_pos hemp]
    · exact absurd hin (by simp)
  | ok r3 kw =>
    rw [is_not_eq] at hin
    split at hin
    · exact absurd hin (by simp)
    · rename_i hemp
      injection hin with hin1 hin2
      have hr3 : LineOk r3 := by
        rw [← hin1]
        have hsplit : rest =
            rest.takeWhile (fun c => !(([' ', '\r', '\n']).contains c)) ++
              rest.dropWhile (fun c => !(([' ', '\r', '\n']).contains c)) :=
          (List.takeWhile_append_dropWhile _ _).symm
        exact LineOk_append (hsplit ▸ h)
      dsimp only
      rw [tailRun_eq r3 hr3]
      unfold specKwTail
      rw [if_neg hemp, drop_takeWhile_length, hin1, hin2]
      cases specTail r3 with
      | none => rfl
      | some o => rfl

/-- The code-then-tail piece of the ERR alternative, followed by the
line terminator, behaves like specErrTail whenever the digit run fits
an unsigned 32-bit value. -/
theorem errTail_eq (rest : List Char) (h : LineOk rest)
    (hnof : digitsToNat (rest.takeWhile Char.isDigit) ≤ 4294967295) :
    terminated (ppair gpg_error_code tailOptInfo) line_ending rest =
      (match specErrTail rest with
       | some cd => PResult.ok [] cd
       | none => PResult.fail) := by
  rw [terminated_ppair, gpg_error_code_eq]
  by_cases hemp : (rest.takeWhile Char.isDigit).isEmpty = true
  · rw [if_pos hemp]
    unfold specErrTail
    rw [if_pos hemp]
  · rw [if_neg hemp, if_pos hnof]
    have hr3 : LineOk (rest.dropWhile Char.isDigit) := by
      have hsplit : rest = rest.takeWhile Char.isDigit ++ rest.dropWhile Char.isDigit :=
        (List.takeWhile_append_dropWhile _ _).symm
      exact LineOk_append (hsplit ▸ h)
    dsimp only
    rw [tailRun_eq _ hr3]
    unfold specErrTail
    rw [if_neg hemp, drop_takeWhile_length]
    cases specTail (rest.dropWhile Char.isDigit) with
    | none => rfl
    | some o => rfl

/-- The code-then-tail piece of the ERR alternative panics when the
digit run overflows an unsigned 32-bit value. -/
theorem errTail_fatal (rest : List Char)
    (hne : ¬ (rest.takeWhile Char.isDigit).isEmpty = true)
    (hof : 4294967295 < digitsToNat (rest.takeWhile Char.isDigit)) :
    terminated (ppair gpg_error_code tailOptInfo) line_ending rest = PResult.fatal := by
  rw [terminated_ppair, gpg_error_code_eq, if_neg hne, if_neg (by omega)]

/-! Lemmas dispatching server_response to the alternative selected by
its leading tag: the six tags start with pairwise distinct characters,
so at most one alternative can consume any given line. -/

theorem splitEol_append_left (m0 tail : List Char) (h1 : '\n' ∉ m0) (h2 : '\r' ∉ m0) :
    splitEol (m0 ++ tail) = (splitEol tail).map (fun b => m0 ++ b) := by
  induction m0 with
  | nil =>
    simp only [List.nil_append]
    cases splitEol tail <;> rfl
  | cons c t ih =>
    have hc : c ≠ '\n' := fun e => h1 (by simp [e])
    have hcr : c ≠ '\r' := fun e => h2 (by simp [e])
    rw [List.cons_append, splitEol_cons c _ hcr hc,
      ih (fun e => h1 (List.mem_cons_of_mem _ e)) (fun e => h2 (List.mem_cons_of_mem _ e))]
    cases splitEol tail <;> rfl

theorem takeWhile_append_stop (p : Char → Bool) (a b : List Char)
    (hb : match b with | [] => True | c :: _ => p c = false) :
    (a ++ b).takeWhile p = a.takeWhile p := by
  induction a with
  | nil =>
    cases b with
    | nil => rfl
    | cons c t => simp [List.takeWhile_cons, hb]
  | cons c t ih => simp [List.takeWhile_cons, ih]

theorem pmap_ne_fail {α β : Type} (f : Parser α) (g : α → β) (l : List Char)
    (h : f l ≠ PResult.fail) : pmap f g l ≠ PResult.fail := by
  unfold pmap
  cases hf : f l with
  | ok r v => simp
  | fail => exact absurd hf h
  | fatal => simp

theorem server_on_ok (rest : List Char) :
    server_response ('O' :: 'K' :: rest) =
      (match terminated tailOptInfo line_ending rest with
       | PResult.ok r v => PResult.ok r (Response.Ok v)
       | PResult.fail => PResult.fail
       | PResult.fatal => PResult.fatal) := by
  have h2 : tag (['O', 'K']) ('O' :: 'K' :: rest) = PResult.ok rest (['O', 'K']) :=
    tag_append (['O', 'K']) rest
  unfold server_response terminated palt okBranch preceded pmap
  simp only [h2]
  cases ht : tailOptInfo rest with
  | ok r v =>
    dsimp only
    cases line_ending r <;> rfl
  | fail => exact absurd ht (popt_ne_fail _ _)
  | fatal => rfl

theorem server_on_err (rest : List Char) :
    server_response ('E' :: 'R' :: 'R' :: ' ' :: rest) =
      (match terminated (ppair gpg_error_code tailOptInfo) line_ending rest with
       | PResult.ok r cd => PResult.ok r (Response.Err cd.1 cd.2)
       | PResult.fail => PResult.fail
       | PResult.fatal => PResult.fatal) := by
  have h1 : tag (['O', 'K']) ('E' :: 'R' :: 'R' :: ' ' :: rest) = PResult.fail := by
    simp [tag, List.isPrefixOf]
  have h2 : tag (['E', 'R', 'R', ' ']) ('E' :: 'R' :: 'R' :: ' ' :: rest) =
      PResult.ok rest (['E', 'R', 'R', ' ']) := tag_append _ rest
  have h3 : tag (['S', ' ']) ('E' :: 'R' :: 'R' :: ' ' :: rest) = PResult.fail := by
    simp [tag, List.isPrefixOf]
  have h4 : tag (['#', ' ']) ('E' :: 'R' :: 'R' :: ' ' :: rest) = PResult.fail := by
    simp [tag, List.isPrefixOf]
  have h5 : tag (['D', ' ']) ('E' :: 'R' :: 'R' :: ' ' :: rest) = PResult.fail := by
    simp [tag, List.isPrefixOf]
  have h6 : tag (['I', 'N', 'Q', 'U', 'I', 'R', 'E', ' '])
      ('E' :: 'R' :: 'R' :: ' ' :: rest) = PResult.fail := by
    simp [tag, List.isPrefixOf]
  unfold server_response terminated palt okBranch errBranch kwBranch restBranch preceded pmap
  simp only [h1, h2, h3, h4, h5, h6]
  cases hp : ppair gpg_error_code tailOptInfo rest with
  | ok r cd =>
    dsimp only
    cases line_ending r <;> rfl
  | fail => rfl
  | fatal => rfl

theorem server_on_s (rest : List Char) :
    server_response ('S' :: ' ' :: rest) =
      (match terminated (ppair (is_not ([' ', '\r', '\n'])) tailOptInfo) line_ending rest with
       | PResult.ok r kv => PResult.ok r (Response.Information kv.1 kv.2)
       | PResult.fail => PResult.fail
       | PResult.fatal => PResult.fatal) := by
  have h1 : tag (['O', 'K']) ('S' :: ' ' :: rest) = PResult.fail := by
    simp [tag, List.isPrefixOf]
  have h2 : tag (['E', 'R', 'R', ' ']) ('S' :: ' ' :: rest) = PResult.fail := by
    simp [tag, List.isPrefixOf]
  have h3 : tag (['S', ' ']) ('S' :: ' ' :: rest) = PResult.ok rest (['S', ' ']) :=
    tag_append _ rest
  have h4 : tag (['#', ' ']) ('S' :: ' ' :: rest) = PResult.fail := by
    simp [tag, List.isPrefixOf]
  have h5 : tag (['D', ' ']) ('S' :: ' ' :: rest) = PResult.fail := by
    simp [tag, List.isPrefixOf]
  have h6 : tag (['I', 'N', 'Q', 'U', 'I', 'R', 'E', ' ']) ('S' :: ' ' :: rest) =
      PResult.fail := by
    simp [tag, List.isPrefixOf]
  unfold server_response terminated palt okBranch errBranch kwBranch restBranch preceded pmap
  simp only [h1, h2, h3, h4, h5, h6]
  cases hp : ppair (is_not ([' ', '\r', '\n'])) tailOptInfo rest with
  | ok r kv =>
    dsimp only
    cases line_ending r <;> rfl
  | fail => rfl
  | fatal => rfl

theorem server_on_comment (rest : List Char) :
    server_response ('#' :: ' ' :: rest) =
      (match terminated (is_not (['\r', '\n'])) line_ending rest with
       | PResult.ok r m => PResult.ok r (Response.Comment m)
       | PResult.fail => PResult.fail
       | PResult.fatal => PResult.fatal) := by
  have h1 : tag (['O', 'K']) ('#' :: ' ' :: rest) = PResult.fail := by
    simp [tag, List.isPrefixOf]
  have h2 : tag (['E', 'R', 'R', ' ']) ('#' :: ' ' :: rest) = PResult.fail := by
    simp [tag, List.isPrefixOf]
  have h3 : tag (['S', ' ']) ('#' :: ' ' :: rest) = PResult.fail := by
    simp [tag, List.isPrefixOf]
  have h4 : tag (['#', ' ']) ('#' :: ' ' :: rest) = PResult.ok rest (['#', ' ']) :=
    tag_append _ rest
  have h5 : tag (['D', ' ']) ('#' :: ' ' :: rest) = PResult.fail := by
    simp [tag, List.isPrefixOf]
  have h6 : tag (['I', 'N', 'Q', 'U', 'I', 'R', 'E', ' ']) ('#' :: ' ' :: rest) =
      PResult.fail := by
    simp [tag, List.isPrefixOf]
  unfold server_response terminated palt okBranch errBranch kwBranch restBranch preceded pmap
  simp only [h1, h2, h3, h4, h5, h6]
  cases hp : is_not (['\r', '\n']) rest with
  | ok r m =>
    dsimp only
    cases line_ending r <;> rfl
  | fail => rfl
  | fatal => rfl

theorem server_on_d (rest : List Char) :
    server_response ('D' :: ' ' :: rest) =
      (match terminated (is_not (['\r', '\n'])) line_ending rest with
       | PResult.ok r m => PResult.ok r (Response.DataLine m)
       | PResult.fail => PResult.fail
       | PResult.fatal => PResult.fatal) := by
  have h1 : tag (['O', 'K']) ('D' :: ' ' :: rest) = PResult.fail := by
    simp [tag, List.isPrefixOf]
  have h2 : tag (['E', 'R', 'R', ' ']) ('D' :: ' ' :: rest) = PResult.fail := by
    simp [tag, List.isPrefixOf]
  have h3 : tag (['S', ' ']) ('D' :: ' ' :: rest) = PResult.fail := by
    simp [tag, List.isPrefixOf]
  have h4 : tag (['#', ' ']) ('D' :: ' ' :: rest) = PResult.fail := by
    simp [tag, List.isPrefixOf]
  have h5 : tag (['D', ' ']) ('D' :: ' ' :: rest) = PResult.ok rest (['D', ' ']) :=
    tag_append _ rest
  have h6 : tag (['I', 'N', 'Q', 'U', 'I', 'R', 'E', ' ']) ('D' :: ' ' :: rest) =
      PResult.fail := by
    simp [tag, List.isPrefixOf]
  unfold server_response terminated palt okBranch errBranch kwBranch restBranch preceded pmap
  simp only [h1, h2, h3, h4, h5, h6]
  cases hp : is_not (['\r', '\n']) rest with
  | ok r m =>
    dsimp only
    cases line_ending r <;> rfl
  | fail => rfl
  | fatal => rfl

theorem server_on_inquire (rest : List Char) :
    server_response ('I' :: 'N' :: 'Q' :: 'U' :: 'I' :: 'R' :: 'E' :: ' ' :: rest) =
      (match terminated (ppair (is_not ([' ', '\r', '\n'])) tailOptInfo) line_ending rest with
       | PResult.ok r kv => PResult.ok r (Response.Inquire kv.1 kv.2)
       | PResult.fail => PResult.fail
       | PResult.fatal => PResult.fatal) := by
  have h1 : tag (['O', 'K']) ('I' :: 'N' :: 'Q' :: 'U' :: 'I' :: 'R' :: 'E' :: ' ' :: rest) =
      PResult.fail := by
    simp [tag, List.isPrefixOf]
  have h2 : tag (['E', 'R', 'R', ' '])
      ('I' :: 'N' :: 'Q' :: 'U' :: 'I' :: 'R' :: 'E' :: ' ' :: rest) = PResult.fail := by
    simp [tag, List.isPrefixOf]
  have h3 : tag (['S', ' ']) ('I' :: 'N' :: 'Q' :: 'U' :: 'I' :: 'R' :: 'E' :: ' ' :: rest) =
      PResult.fail := by
    simp [tag, List.isPrefixOf]
  have h4 : tag (['#', ' ']) ('I' :: 'N' :: 'Q' :: 'U' :: 'I' :: 'R' :: 'E' :: ' ' :: rest) =
      PResult.fail := by
    simp [tag, List.isPrefixOf]
  have h5 : tag (['D', ' ']) ('I' :: 'N' :: 'Q' :: 'U' :: 'I' :: 'R' :: 'E' :: ' ' :: rest) =
      PResult.fail := by
    simp [tag, List.isPrefixOf]
  have h6 : tag (['I', 'N', 'Q', 'U', 'I', 'R', 'E', ' '])
      ('I' :: 'N' :: 'Q' :: 'U' :: 'I' :: 'R' :: 'E' :: ' ' :: rest) =
      PResult.ok rest (['I', 'N', 'Q', 'U', 'I', 'R', 'E', ' ']) := tag_append _ rest
  unfold server_response terminated palt okBranch errBranch kwBranch restBranch preceded pmap
  simp only [h1, h2, h3, h4, h5, h6]
  cases hp : ppair (is_not ([' ', '\r', '\n'])) tailOptInfo rest with
  | ok r kv =>
    dsimp only
    cases line_ending r <;> rfl
  | fail => rfl
  | fatal => rfl

theorem server_fail_of_no_tag (l : List Char)
    (h1 : ¬ (['O', 'K']).isPrefixOf l = true)
    (h2 : ¬ (['E', 'R', 'R', ' ']).isPrefixOf l = true)
    (h3 : ¬ (['S', ' ']).isPrefixOf l = true)
    (h4 : ¬ (['#', ' ']).isPrefixOf l = true)
    (h5 : ¬ (['D', ' ']).isPrefixOf l = true)
    (h6 : ¬ (['I', 'N', 'Q', 'U', 'I', 'R', 'E', ' ']).isPrefixOf l = true) :
    server_response l = PResult.fail := by
  unfold server_response terminated palt okBranch errBranch kwBranch restBranch preceded tag
  simp [h1, h2, h3, h4, h5, h6]

/-! Lemmas reducing specParseLine on each table row to the shared tail
characterizations. -/

theorem takeWhile_congr {p q : Char → Bool} {l : List Char}
    (h : ∀ c ∈ l, p c = q c) : l.takeWhile p = l.takeWhile q := by
  induction l with
  | nil => rfl
  | cons c t ih =>
    rw [List.takeWhile_cons, List.takeWhile_cons, h c (by simp)]
    by_cases hq : q c = true
    · rw [if_pos hq, if_pos hq, ih (fun x hx => h x (by simp [hx]))]
    · rw [if_neg hq, if_neg hq]

theorem specTail_drop_none (p : Char → Bool) (rest : List Char)
    (h1 : '\n' ∉ rest.takeWhile p) (h2 : '\r' ∉ rest.takeWhile p)
    (hs : splitEol rest = none) :
    specTail (rest.drop (rest.takeWhile p).length) = none := by
  rw [drop_takeWhile_length]
  unfold specTail
  have hnone : splitEol (rest.dropWhile p) = none := by
    cases hx : splitEol (rest.dropWhile p) with
    | none => rfl
    | some bb =>
      have hr : rest = rest.takeWhile p ++ rest.dropWhile p :=
        (List.takeWhile_append_dropWhile _ _).symm
      rw [hr, splitEol_append_left _ _ h1 h2, hx] at hs
      exact absurd hs (by simp)
  rw [hnone]

theorem tailShape_cons_other (c : Char) (m : List Char) (hc : c ≠ ' ') :
    tailShape (c :: m) = none := by
  unfold tailShape
  split
  · rename_i heq
    exact absurd heq (by simp)
  · rename_i mm heq
    injection heq with h9
    exact absurd h9 hc
  · rfl

theorem specTail_clean_append (bdrop e : List Char)
    (h1 : '\r' ∉ bdrop) (h2 : '\n' ∉ bdrop)
    (he : e = ['\n'] ∨ e = ['\r', '\n']) :
    specTail (bdrop ++ e) = tailShape bdrop := by
  have hs : splitEol (bdrop ++ e) = some bdrop := by
    rcases he with rfl | rfl
    · exact splitEol_append_lf _ h2 h1
    · exact splitEol_append_crlf _ h2 h1
  unfold specTail
  rw [hs]
  cases bdrop with
  | nil => rfl
  | cons c m =>
    by_cases hc : c = ' '
    · subst hc
      rfl
    · rw [tailShape_cons_other c m hc]
      split
      · rename_i heq
        exact absurd heq (by simp)
      · rename_i mm heq
        injection heq with h9
        injection h9 with h10
        exact absurd h10 hc
      · rfl
      · rfl

theorem spec_on_ok (rest : List Char) :
    specParseLine ('O' :: 'K' :: rest) = Option.map Response.Ok (specTail rest) := by
  unfold specParseLine
  rw [splitEol_cons 'O' _ (by decide) (by decide), splitEol_cons 'K' _ (by decide) (by decide)]
  unfold specTail
  cases hs : splitEol rest with
  | none => rfl
  | some b =>
    cases b with
    | nil => rfl
    | cons c m =>
      by_cases hc : c = ' '
      · subst hc
        by_cases hm : m.isEmpty = true
        · have hm2 : m = [] := by simpa using hm
          subst hm2
          rfl
        · simp [specBody, List.isPrefixOf, hm]
      · simp [specBody, List.isPrefixOf, hc]
        exact fun e => absurd e.symm hc

theorem spec_on_comment (rest : List Char) :
    specParseLine ('#' :: ' ' :: rest) = Option.map Response.Comment (specRest rest) := by
  unfold specParseLine specRest
  rw [splitEol_cons '#' _ (by decide) (by decide), splitEol_cons ' ' _ (by decide) (by decide)]
  cases hs : splitEol rest with
  | none => rfl
  | some b =>
    by_cases hb : b.isEmpty = true
    · have hb2 : b = [] := by simpa using hb
      subst hb2
      rfl
    · simp [specBody, List.isPrefixOf, hb]

theorem spec_on_d (rest : List Char) :
    specParseLine ('D' :: ' ' :: rest) = Option.map Response.DataLine (specRest rest) := by
  unfold specParseLine specRest
  rw [splitEol_cons 'D' _ (by decide) (by decide), splitEol_cons ' ' _ (by decide) (by decide)]
  cases hs : splitEol rest with
  | none => rfl
  | some b =>
    by_cases hb : b.isEmpty = true
    · have hb2 : b = [] := by simpa using hb
      subst hb2
      rfl
    · simp [specBody, List.isPrefixOf, hb]

theorem specKwTail_none (rest : List Char) (hs : splitEol rest = none) :
    specKwTail rest = none := by
  unfold specKwTail
  by_cases hk : (rest.takeWhile (fun c => !(([' ', '\r', '\n']).contains c))).isEmpty = true
  · rw [if_pos hk]
  · rw [if_neg hk, specTail_drop_none _ rest (takeWhile_not_contains (by simp))
      (takeWhile_not_contains (by simp)) hs]
    rfl

theorem specErrTail_none (rest : List Char) (hs : splitEol rest = none) :
    specErrTail rest = none := by
  unfold specErrTail
  by_cases hk : (rest.takeWhile Char.isDigit).isEmpty = true
  · rw [if_pos hk]
  · rw [if_neg hk, specTail_drop_none Char.isDigit rest
      (fun hm => absurd (List.mem_takeWhile_imp hm) (by decide))
      (fun hm => absurd (List.mem_takeWhile_imp hm) (by decide)) hs]
    rfl

theorem specKw_vs_kwTail (b e : List Char) (hbr : '\r' ∉ b) (hbn : '\n' ∉ b)
    (he : e = ['\n'] ∨ e = ['\r', '\n'])
    (mk : List Char → Option (List Char) → Response) :
    specKw b mk = Option.map (fun kv => mk kv.1 kv.2) (specKwTail (b ++ e)) := by
  have hstop : ((b ++ e).takeWhile (fun c => !(([' ', '\r', '\n']).contains c))) =
      b.takeWhile (fun c => !(([' ', '\r', '\n']).contains c)) := by
    refine takeWhile_append_stop _ b e ?_
    rcases he with rfl | rfl <;> simp
  have hcongr : b.takeWhile (fun c => !(([' ', '\r', '\n']).contains c)) =
      b.takeWhile (fun c => decide (c ≠ ' ')) := by
    refine takeWhile_congr ?_
    intro c hcmem
    by_cases hsp : c = ' '
    · subst hsp
      simp
    · have hc1 : c ≠ '\r' := fun ee => hbr (ee ▸ hcmem)
      have hc2 : c ≠ '\n' := fun ee => hbn (ee ▸ hcmem)
      simp [hsp, hc1, hc2]
  unfold specKw specKwTail
  rw [hstop, hcongr]
  by_cases hk : (b.takeWhile (fun c => decide (c ≠ ' '))).isEmpty = true
  · rw [if_pos hk, if_pos hk]
    rfl
  · rw [if_neg hk, if_neg hk]
    have hdlen : (b.takeWhile (fun c => decide (c ≠ ' '))).length ≤ b.length :=
      (List.takeWhile_prefix _).length_le
    rw [List.drop_append_of_le_length hdlen]
    rw [specTail_clean_append (b.drop (b.takeWhile (fun c => decide (c ≠ ' '))).length) e
      (fun hm => hbr (List.drop_subset _ b hm)) (fun hm => hbn (List.drop_subset _ b hm)) he]
    cases hbd : b.drop (b.takeWhile (fun c => decide (c ≠ ' '))).length with
    | nil => rfl
    | cons c st =>
      by_cases hc : c = ' '
      · subst hc
        by_cases hst : st.isEmpty = true
        · simp [tailShape, hst]
        · simp [tailShape, hst]
      · rw [tailShape_cons_other c st hc]
        split
        · rename_i heq
          exact absurd heq (by simp)
        · rename_i mm heq
          injection heq with h9
          exact absurd h9 hc
        · rfl

theorem spec_on_s (rest : List Char) :
    specParseLine ('S' :: ' ' :: rest) =
      Option.map (fun kv => Response.Information kv.1 kv.2) (specKwTail rest) := by
  unfold specParseLine
  rw [splitEol_cons 'S' _ (by decide) (by decide), splitEol_cons ' ' _ (by decide) (by decide)]
  cases hs : splitEol rest with
  | none =>
    rw [specKwTail_none rest hs]
    rfl
  | some b =>
    obtain ⟨⟨hbr, hbn⟩, hdec⟩ := splitEol_sound rest b hs
    have hbody : specBody ('S' :: ' ' :: b) = specKw b Response.Information := by
      simp [specBody, List.isPrefixOf]
    show specBody ('S' :: ' ' :: b) = _
    rw [hbody]
    obtain ⟨e, he, hrest⟩ : ∃ e, (e = ['\n'] ∨ e = ['\r', '\n']) ∧ rest = b ++ e := by
      rcases hdec with hd | hd
      · exact ⟨['\n'], Or.inl rfl, hd⟩
      · exact ⟨['\r', '\n'], Or.inr rfl, hd⟩
    rw [hrest] at *
    exact specKw_vs_kwTail b e hbr hbn he Response.Information

theorem spec_on_inquire (rest : List Char) :
    specParseLine ('I' :: 'N' :: 'Q' :: 'U' :: 'I' :: 'R' :: 'E' :: ' ' :: rest) =
      Option.map (fun kv => Response.Inquire kv.1 kv.2) (specKwTail rest) := by
  unfold specParseLine
  rw [splitEol_cons 'I' _ (by decide) (by decide), splitEol_cons 'N' _ (by decide) (by decide),
    splitEol_cons 'Q' _ (by decide) (by decide), splitEol_cons 'U' _ (by decide) (by decide),
    splitEol_cons 'I' _ (by decide) (by decide), splitEol_cons 'R' _ (by decide) (by decide),
    splitEol_cons 'E' _ (by decide) (by decide), splitEol_cons ' ' _ (by decide) (by decide)]
  cases hs : splitEol rest with
  | none =>
    rw [specKwTail_none rest hs]
    rfl
  | some b =>
    obtain ⟨⟨hbr, hbn⟩, hdec⟩ := splitEol_sound rest b hs
    have hbody : specBody ('I' :: 'N' :: 'Q' :: 'U' :: 'I' :: 'R' :: 'E' :: ' ' :: b) =
        specKw b Response.Inquire := by
      simp [specBody, List.isPrefixOf]
    show specBody ('I' :: 'N' :: 'Q' :: 'U' :: 'I' :: 'R' :: 'E' :: ' ' :: b) = _
    rw [hbody]
    obtain ⟨e, he, hrest⟩ : ∃ e, (e = ['\n'] ∨ e = ['\r', '\n']) ∧ rest = b ++ e := by
      rcases hdec with hd | hd
      · exact ⟨['\n'], Or.inl rfl, hd⟩
      · exact ⟨['\r', '\n'], Or.inr rfl, hd⟩
    rw [hrest] at *
    exact specKw_vs_kwTail b e hbr hbn he Response.Inquire

theorem spec_on_err (rest : List Char) :
    specParseLine ('E' :: 'R' :: 'R' :: ' ' :: rest) =
      Option.map (fun cd => Response.Err cd.1 cd.2) (specErrTail rest) := by
  unfold specParseLine
  rw [splitEol_cons 'E' _ (by decide) (by decide), splitEol_cons 'R' _ (by decide) (by decide),
    splitEol_cons 'R' _ (by decide) (by decide), splitEol_cons ' ' _ (by decide) (by decide)]
  cases hs : splitEol rest with
  | none =>
    rw [specErrTail_none rest hs]
    rfl
  | some b =>
    obtain ⟨⟨hbr, hbn⟩, hdec⟩ := splitEol_sound rest b hs
    obtain ⟨e, he, hrest⟩ : ∃ e, (e = ['\n'] ∨ e = ['\r', '\n']) ∧ rest = b ++ e := by
      rcases hdec with hd | hd
      · exact ⟨['\n'], Or.inl rfl, hd⟩
      · exact ⟨['\r', '\n'], Or.inr rfl, hd⟩
    show specBody ('E' :: 'R' :: 'R' :: ' ' :: b) = _
    have hbody : specBody ('E' :: 'R' :: 'R' :: ' ' :: b) =
        (if (b.takeWhile Char.isDigit).isEmpty then none
         else
           match b.drop (b.takeWhile Char.isDigit).length with
           | [] => some (Response.Err (digitsToNat (b.takeWhile Char.isDigit) % 65536) none)
           | ' ' :: desc =>
             if desc.isEmpty then none
             else some (Response.Err (digitsToNat (b.takeWhile Char.isDigit) % 65536) (some desc))
           | _ => none) := by
      simp [specBody, List.isPrefixOf]
    rw [hbody, hrest]
    have hstop : ((b ++ e).takeWhile Char.isDigit) = b.takeWhile Char.isDigit := by
      refine takeWhile_append_stop _ b e ?_
      rcases he with rfl | rfl <;> simp
    unfold specErrTail
    rw [hstop]
    by_cases hk : (b.takeWhile Char.isDigit).isEmpty = true
    · rw [if_pos hk, if_pos hk]
      rfl
    · rw [if_neg hk, if_neg hk]
      have hdlen : (b.takeWhile Char.isDigit).length ≤ b.length :=
        (List.takeWhile_prefix _).length_le
      rw [List.drop_append_of_le_length hdlen]
      rw [specTail_clean_append (b.drop (b.takeWhile Char.isDigit).length) e
        (fun hm => hbr (List.drop_subset _ b hm)) (fun hm => hbn (List.drop_subset _ b hm)) he]
      cases hbd : b.drop (b.takeWhile Char.isDigit).length with
      | nil => rfl
      | cons c st =>
        by_cases hc : c = ' '
        · subst hc
          by_cases hst : st.isEmpty = true
          · simp [tailShape, hst]
          · simp [tailShape, hst]
        · rw [tailShape_cons_other c st hc]
          split
          · rename_i heq
            exact absurd heq (by simp)
          · rename_i mm heq
            injection heq with h9
            exact absurd h9 hc
          · rfl

theorem specParseLine_none_of_no_tag (l : List Char)
    (h1 : ¬ (['O', 'K']).isPrefixOf l = true)
    (h2 : ¬ (['E', 'R', 'R', ' ']).isPrefixOf l = true)
    (h3 : ¬ (['S', ' ']).isPrefixOf l = true)
    (h4 : ¬ (['#', ' ']).isPrefixOf l = true)
    (h5 : ¬ (['D', ' ']).isPrefixOf l = true)
    (h6 : ¬ (['I', 'N', 'Q', 'U', 'I', 'R', 'E', ' ']).isPrefixOf l = true) :
    specParseLine l = none := by
  unfold specParseLine
  cases hs : splitEol l with
  | none => rfl
  | some body =>
    obtain ⟨_, hdec⟩ := splitEol_sound l body hs
    have htrans : ∀ t : List Char, t.isPrefixOf body = true → t.isPrefixOf l = true := by
      intro t ht
      have hp := List.isPrefixOf_iff_prefix.mp ht
      rcases hdec with hd | hd
      · rw [hd]
        exact List.isPrefixOf_iff_prefix.mpr (hp.trans (List.prefix_append _ _))
      · rw [hd]
        exact List.isPrefixOf_iff_prefix.mpr (hp.trans (List.prefix_append _ _))
    have hb1 : (['O', 'K']).isPrefixOf body = false := by
      cases hx : (['O', 'K']).isPrefixOf body
      · rfl
      · exact absurd (htrans _ hx) h1
    have hb2 : (['E', 'R', 'R', ' ']).isPrefixOf body = false := by
      cases hx : (['E', 'R', 'R', ' ']).isPrefixOf body
      · rfl
      · exact absurd (htrans _ hx) h2
    have hb3 : (['S', ' ']).isPrefixOf body = false := by
      cases hx : (['S', ' ']).isPrefixOf body
      · rfl
      · exact absurd (htrans _ hx) h3
    have hb4 : (['#', ' ']).isPrefixOf body = false := by
      cases hx : (['#', ' ']).isPrefixOf body
      · rfl
      · exact absurd (htrans _ hx) h4
    have hb5 : (['D', ' ']).isPrefixOf body = false := by
      cases hx : (['D', ' ']).isPrefixOf body
      · rfl
      · exact absurd (htrans _ hx) h5
    have hb6 : (['I', 'N', 'Q', 'U', 'I', 'R', 'E', ' ']).isPrefixOf body = false := by
      cases hx : (['I', 'N', 'Q', 'U', 'I', 'R', 'E', ' ']).isPrefixOf body
      · rfl
      · exact absurd (htrans _ hx) h6
    have hbOKsp : (['O', 'K', ' ']).isPrefixOf body = false := by
      cases hx : (['O', 'K', ' ']).isPrefixOf body
      · rfl
      · have hshort : (['O', 'K']).isPrefixOf body = true := by
          rw [List.isPrefixOf_iff_prefix] at hx ⊢
          exact List.IsPrefix.trans ⟨[' '], rfl⟩ hx
        rw [hshort] at hb1
        exact absurd hb1 (by simp)
    have hbne : ¬ body = ['O', 'K'] := by
      intro e
      subst e
      rw [show (['O', 'K']).isPrefixOf (['O', 'K']) = true by decide] at hb1
      exact absurd hb1 (by simp)
    simp [specBody, hbne, hbOKsp, hb1, hb2, hb3, hb4, hb5, hb6]

/-- The master refinement: on every single input line whose ERR digit
run fits an unsigned 32-bit value, the nom parser agrees with the
verdict of the table of spec section 4.2. -/
theorem server_matches_spec (l : List Char) (h : LineOk l)
    (hof : errOverflow l = false) : server_response l = specVerdict l := by
  by_cases hOK : (['O', 'K']).isPrefixOf l = true
  · obtain ⟨t, ht⟩ := List.isPrefixOf_iff_prefix.mp hOK
    subst ht
    show server_response ('O' :: 'K' :: t) = specVerdict ('O' :: 'K' :: t)
    have ht2 : LineOk t := LineOk_append (a := ['O', 'K']) h
    rw [server_on_ok t, tailRun_eq t ht2]
    unfold specVerdict
    rw [spec_on_ok t]
    cases specTail t with
    | none => rfl
    | some o => rfl
  · by_cases hERR : (['E', 'R', 'R', ' ']).isPrefixOf l = true
    · obtain ⟨t, ht⟩ := List.isPrefixOf_iff_prefix.mp hERR
      subst ht
      show server_response ('E' :: 'R' :: 'R' :: ' ' :: t) =
        specVerdict ('E' :: 'R' :: 'R' :: ' ' :: t)
      have ht2 : LineOk t := LineOk_append (a := ['E', 'R', 'R', ' ']) h
      have hof2 : errOverflow ('E' :: 'R' :: 'R' :: ' ' :: t) = false := hof
      have hnof : digitsToNat (t.takeWhile Char.isDigit) ≤ 4294967295 := by
        by_contra hgt
        push_neg at hgt
        have hne : ¬ (t.takeWhile Char.isDigit).isEmpty = true := by
          intro he
          have he2 : t.takeWhile Char.isDigit = [] := by simpa using he
          rw [he2] at hgt
          simp [digitsToNat] at hgt
        have htrue : errOverflow ('E' :: 'R' :: 'R' :: ' ' :: t) = true := by
          unfold errOverflow
          simp [List.isPrefixOf]
          exact ⟨by simpa using hne, hgt⟩
        rw [hof2] at htrue
        exact absurd htrue (by simp)
      rw [server_on_err t, errTail_eq t ht2 hnof]
      unfold specVerdict
      rw [spec_on_err t]
      cases specErrTail t with
      | none => rfl
      | some cd => rfl
    · by_cases hS : (['S', ' ']).isPrefixOf l = true
      · obtain ⟨t, ht⟩ := List.isPrefixOf_iff_prefix.mp hS
        subst ht
        show server_response ('S' :: ' ' :: t) = specVerdict ('S' :: ' ' :: t)
        have ht2 : LineOk t := LineOk_append (a := ['S', ' ']) h
        rw [server_on_s t, kwTail_eq t ht2]
        unfold specVerdict
        rw [spec_on_s t]
        cases specKwTail t with
        | none => rfl
        | some kv => rfl
      · by_cases hC : (['#', ' ']).isPrefixOf l = true
        · obtain ⟨t, ht⟩ := List.isPrefixOf_iff_prefix.mp hC
          subst ht
          show server_response ('#' :: ' ' :: t) = specVerdict ('#' :: ' ' :: t)
          have ht2 : LineOk t := LineOk_append (a := ['#', ' ']) h
          rw [server_on_comment t, restTail_eq t ht2]
          unfold specVerdict
          rw [spec_on_comment t]
          cases specRest t with
          | none => rfl
          | some m => rfl
        · by_cases hD : (['D', ' ']).isPrefixOf l = true
          · obtain ⟨t, ht⟩ := List.isPrefixOf_iff_prefix.mp hD
            subst ht
            show server_response ('D' :: ' ' :: t) = specVerdict ('D' :: ' ' :: t)
            have ht2 : LineOk t := LineOk_append (a := ['D', ' ']) h
            rw [server_on_d t, restTail_eq t ht2]
            unfold specVerdict
            rw [spec_on_d t]
            cases specRest t with
            | none => rfl
            | some m => rfl
          · by_cases hI : (['I', 'N', 'Q', 'U', 'I', 'R', 'E', ' ']).isPrefixOf l = true
            · obtain ⟨t, ht⟩ := List.isPrefixOf_iff_prefix.mp hI
              subst ht
              show server_response ('I' :: 'N' :: 'Q' :: 'U' :: 'I' :: 'R' :: 'E' :: ' ' :: t) =
                specVerdict ('I' :: 'N' :: 'Q' :: 'U' :: 'I' :: 'R' :: 'E' :: ' ' :: t)
              have ht2 : LineOk t := LineOk_append (a := ['I', 'N', 'Q', 'U', 'I', 'R', 'E', ' ']) h
              rw [server_on_inquire t, kwTail_eq t ht2]
              unfold specVerdict
              rw [spec_on_inquire t]
              cases specKwTail t with
              | none => rfl
              | some kv => rfl
            · rw [server_fail_of_no_tag l hOK hERR hS hC hD hI]
              unfold specVerdict
              rw [specParseLine_none_of_no_tag l hOK hERR hS hC hD hI]

/-! Lemmas about the response-aggregation loop. -/

theorem read_go_cons (line : List Char) (rest : List (List Char))
    (data : Option (List Char)) :
    read_response_go (line :: rest) data =
      (match server_response line with
       | PResult.fail => (ReadOutcome.err Error.Io, Ev.zeroizeLine :: dropEv data)
       | PResult.fatal => (ReadOutcome.panicked, Ev.zeroizeLine :: dropEv data)
       | PResult.ok _ r =>
         match r with
         | Response.Ok _ => (ReadOutcome.ok data, [Ev.zeroizeLine, Ev.zeroizeLine])
         | Response.Err code description =>
           (ReadOutcome.err (Error.from_parts code description),
             Ev.zeroizeLine :: Ev.zeroizeLine ::
               (match data with | some _ => [Ev.zeroizeData] | none => []))
         | Response.Comment _ =>
           let r2 := read_response_go rest data
           (r2.1, Ev.zeroizeLine :: r2.2)
         | Response.DataLine d =>
           match percentDecode d with
           | none => (ReadOutcome.err Error.Encoding, Ev.zeroizeLine :: dropEv data)
           | some dec =>
             let r2 := read_response_go rest (some (data.getD [] ++ dec))
             (r2.1, Ev.zeroizeLine :: (dropEv data ++ r2.2))
         | Response.Information _ _ =>
           let r2 := read_response_go rest data
           (r2.1, Ev.zeroizeLine :: r2.2)
         | Response.Inquire _ _ =>
           let r2 := read_response_go rest data
           (r2.1, Ev.zeroizeLine :: r2.2)) := rfl

theorem read_go_ok_step (line : List Char) (rest : List (List Char))
    (data : Option (List Char)) (r : List Char) (info : Option (List Char))
    (h : server_response line = PResult.ok r (Response.Ok info)) :
    read_response_go (line :: rest) data =
      (ReadOutcome.ok data, [Ev.zeroizeLine, Ev.zeroizeLine]) := by
  rw [read_go_cons, h]

theorem read_go_err_step (line : List Char) (rest : List (List Char))
    (data : Option (List Char)) (r : List Char) (code : Nat)
    (desc : Option (List Char))
    (h : server_response line = PResult.ok r (Response.Err code desc)) :
    read_response_go (line :: rest) data =
      (ReadOutcome.err (Error.from_parts code desc),
        Ev.zeroizeLine :: Ev.zeroizeLine ::
          (match data with | some _ => [Ev.zeroizeData] | none => [])) := by
  rw [read_go_cons, h]

theorem read_go_parsefail_step (line : List Char) (rest : List (List Char))
    (data : Option (List Char)) (h : server_response line = PResult.fail) :
    read_response_go (line :: rest) data =
      (ReadOutcome.err Error.Io, Ev.zeroizeLine :: dropEv data) := by
  rw [read_go_cons, h]

theorem read_go_decodefail_step (line : List Char) (rest : List (List Char))
    (data : Option (List Char)) (r d : List Char)
    (h : server_response line = PResult.ok r (Response.DataLine d))
    (hd : percentDecode d = none) :
    read_response_go (line :: rest) data =
      (ReadOutcome.err Error.Encoding, Ev.zeroizeLine :: dropEv data) := by
  rw [read_go_cons, h]
  dsimp only
  rw [hd]

theorem isIgnorable_isForward (l : List Char) (h : isIgnorable l = true) :
    isForward l = true := by
  unfold isIgnorable at h
  unfold isForward
  cases hsr : server_response l with
  | fail => rw [hsr] at h; exact absurd h (by simp)
  | fatal => rw [hsr] at h; exact absurd h (by simp)
  | ok r resp =>
    rw [hsr] at h
    cases resp <;> first | rfl | exact absurd h (by simp)

theorem accumStep_ignorable (acc : Option (List Char)) (l : List Char)
    (h : isIgnorable l = true) : accumStep acc l = acc := by
  unfold isIgnorable at h
  unfold accumStep
  cases hsr : server_response l with
  | fail => rfl
  | fatal => rfl
  | ok r resp =>
    rw [hsr] at h
    cases resp <;> first | rfl | exact absurd h (by simp)

theorem foldl_accum_ignorable (pre : List (List Char)) (acc : Option (List Char))
    (h : ∀ l ∈ pre, isIgnorable l = true) : pre.foldl accumStep acc = acc := by
  induction pre generalizing acc with
  | nil => rfl
  | cons l t ih =>
    rw [List.foldl_cons, accumStep_ignorable acc l (h l (by simp))]
    exact ih acc (fun x hx => h x (by simp [hx]))

/-- Consuming any number of non-terminal lines only advances the
accumulated data by accumStep, prepending some events to the trace. -/
theorem read_go_forward (pre : List (List Char)) (tail : List (List Char))
    (data : Option (List Char)) (h : ∀ l ∈ pre, isForward l = true) :
    ∃ tr0, read_response_go (pre ++ tail) data =
      ((read_response_go tail (pre.foldl accumStep data)).1,
       tr0 ++ (read_response_go tail (pre.foldl accumStep data)).2) := by
  induction pre generalizing data with
  | nil => exact ⟨[], by simp⟩
  | cons l pre2 ih =>
    have hl := h l (by simp)
    have hpre : ∀ x ∈ pre2, isForward x = true := fun x hx => h x (by simp [hx])
    unfold isForward at hl
    cases hsr : server_response l with
    | fail => rw [hsr] at hl; exact absurd hl (by simp)
    | fatal => rw [hsr] at hl; exact absurd hl (by simp)
    | ok r resp =>
      rw [hsr] at hl
      cases resp with
      | Ok info => exact absurd hl (by simp)
      | Err code desc => exact absurd hl (by simp)
      | Comment c =>
        have haccum : accumStep data l = data := by
          unfold accumStep
          rw [hsr]
        obtain ⟨tr0, htr⟩ := ih data hpre
        refine ⟨Ev.zeroizeLine :: tr0, ?_⟩
        show read_response_go (l :: (pre2 ++ tail)) data = _
        rw [read_go_cons, hsr]
        dsimp only
        rw [htr, List.foldl_cons, haccum]
        simp
      | Information kw st =>
        have haccum : accumStep data l = data := by
          unfold accumStep
          rw [hsr]
        obtain ⟨tr0, htr⟩ := ih data hpre
        refine ⟨Ev.zeroizeLine :: tr0, ?_⟩
        show read_response_go (l :: (pre2 ++ tail)) data = _
        rw [read_go_cons, hsr]
        dsimp only
        rw [htr, List.foldl_cons, haccum]
        simp
      | Inquire kw params =>
        have haccum : accumStep data l = data := by
          unfold accumStep
          rw [hsr]
        obtain ⟨tr0, htr⟩ := ih data hpre
        refine ⟨Ev.zeroizeLine :: tr0, ?_⟩
        show read_response_go (l :: (pre2 ++ tail)) data = _
        rw [read_go_cons, hsr]
        dsimp only
        rw [htr, List.foldl_cons, haccum]
        simp
      | DataLine d =>
        obtain ⟨p, hp⟩ := Option.isSome_iff_exists.mp hl
        have haccum : accumStep data l = some (data.getD [] ++ p) := by
          unfold accumStep
          rw [hsr]
          dsimp only
          rw [hp]
        obtain ⟨tr0, htr⟩ := ih (some (data.getD [] ++ p)) hpre
        refine ⟨Ev.zeroizeLine :: (dropEv data ++ tr0), ?_⟩
        show read_response_go (l :: (pre2 ++ tail)) data = _
        rw [read_go_cons, hsr]
        dsimp only
        rw [hp]
        dsimp only
        rw [htr, List.foldl_cons, haccum]
        simp

theorem utf8DecodeOne_enc1 (v : Nat) (bs : List Nat) (h : v < 128) :
    utf8DecodeOne (v :: bs) = some (v, bs) := by
  unfold utf8DecodeOne
  dsimp only
  rw [if_pos h]

theorem utf8DecodeOne_enc2 (v : Nat) (bs : List Nat) (h1 : 128 ≤ v) (h2 : v < 2048) :
    utf8DecodeOne ((192 + v / 64) :: (128 + v % 64) :: bs) = some (v, bs) := by
  unfold utf8DecodeOne
  dsimp only
  have hA : ¬ 192 + v / 64 < 128 := by omega
  have hB : ¬ 192 + v / 64 < 194 := by omega
  have hC : 192 + v / 64 < 224 := by omega
  have hD : 128 ≤ 128 + v % 64 ∧ 128 + v % 64 < 192 := by omega
  rw [if_neg hA, if_neg hB, if_pos hC]
  rw [if_pos hD]
  have he : (192 + v / 64 - 192) * 64 + (128 + v % 64 - 128) = v := by omega
  rw [he]

theorem utf8DecodeOne_enc3 (v : Nat) (bs : List Nat) (h1 : 2048 ≤ v) (h2 : v < 65536)
    (h3 : v < 55296 ∨ 57344 ≤ v) :
    utf8DecodeOne ((224 + v / 4096) :: (128 + (v / 64) % 64) :: (128 + v % 64) :: bs)
      = some (v, bs) := by
  unfold utf8DecodeOne
  dsimp only
  have hA : ¬ 224 + v / 4096 < 128 := by omega
  have hB : ¬ 224 + v / 4096 < 194 := by omega
  have hC : ¬ 224 + v / 4096 < 224 := by omega
  have hD : 224 + v / 4096 < 240 := by omega
  rw [if_neg hA, if_neg hB, if_neg hC, if_pos hD]
  have hE : (128 ≤ 128 + (v / 64) % 64 ∧ 128 + (v / 64) % 64 < 192) ∧
      (128 ≤ 128 + v % 64 ∧ 128 + v % 64 < 192) ∧
      ¬ (224 + v / 4096 = 224 ∧ 128 + (v / 64) % 64 < 160) ∧
      ¬ (224 + v / 4096 = 237 ∧ 160 ≤ 128 + (v / 64) % 64) := by
    refine ⟨by omega, by omega, ?_, ?_⟩ <;> omega
  rw [if_pos hE]
  have he : (224 + v / 4096 - 224) * 4096 + (128 + (v / 64) % 64 - 128) * 64 +
      (128 + v % 64 - 128) = v := by omega
  rw [he]

theorem utf8DecodeOne_enc4 (v : Nat) (bs : List Nat) (h1 : 65536 ≤ v) (h2 : v < 1114112) :
    utf8DecodeOne ((240 + v / 262144) :: (128 + (v / 4096) % 64) ::
      (128 + (v / 64) % 64) :: (128 + v % 64) :: bs) = some (v, bs) := by
  unfold utf8DecodeOne
  dsimp only
  have hA : ¬ 240 + v / 262144 < 128 := by omega
  have hB : ¬ 240 + v / 262144 < 194 := by omega
  have hC : ¬ 240 + v / 262144 < 224 := by omega
  have hD : ¬ 240 + v / 262144 < 240 := by omega
  have hE : 240 + v / 262144 < 245 := by omega
  rw [if_neg hA, if_neg hB, if_neg hC, if_neg hD, if_pos hE]
  have hF : (128 ≤ 128 + (v / 4096) % 64 ∧ 128 + (v / 4096) % 64 < 192) ∧
      (128 ≤ 128 + (v / 64) % 64 ∧ 128 + (v / 64) % 64 < 192) ∧
      (128 ≤ 128 + v % 64 ∧ 128 + v % 64 < 192) ∧
      ¬ (240 + v / 262144 = 240 ∧ 128 + (v / 4096) % 64 < 144) ∧
      ¬ (240 + v / 262144 = 244 ∧ 144 ≤ 128 + (v / 4096) % 64) := by
    refine ⟨by omega, by omega, by omega, ?_, ?_⟩ <;> omega
  rw [if_pos hF]
  have he : (240 + v / 262144 - 240) * 262144 + (128 + (v / 4096) % 64 - 128) * 4096 +
      (128 + (v / 64) % 64 - 128) * 64 + (128 + v % 64 - 128) = v := by omega
  rw [he]

theorem utf8DecodeOne_enc (c : Char) (bs : List Nat) :
    utf8DecodeOne (utf8EncodeChar c ++ bs) = some (c.toNat, bs) := by
  have hv : c.toNat < 55296 ∨ (57344 ≤ c.toNat ∧ c.toNat < 1114112) := c.valid
  unfold utf8EncodeChar
  by_cases h1 : c.toNat < 128
  · rw [if_pos h1]; exact utf8DecodeOne_enc1 _ _ h1
  · rw [if_neg h1]
    by_cases h2 : c.toNat < 2048
    · rw [if_pos h2]; exact utf8DecodeOne_enc2 _ _ (by omega) h2
    · rw [if_neg h2]
      by_cases h3 : c.toNat < 65536
      · rw [if_pos h3]
        exact utf8DecodeOne_enc3 _ _ (by omega) h3 (by rcases hv with h | h <;> omega)
      · rw [if_neg h3]
        exact utf8DecodeOne_enc4 _ _ (by omega) (by rcases hv with h | h <;> omega)

theorem utf8DecodeOne_length (bytes : List Nat) (v : Nat) (rest2 : List Nat)
    (h : utf8DecodeOne bytes = some (v, rest2)) : rest2.length < bytes.length := by
  unfold utf8DecodeOne at h
  cases bytes with
  | nil => exact absurd h (by simp)
  | cons b rest =>
    dsimp only at h
    split at h
    · injection h with h'; injection h' with h1 h2; subst h2; simp only [List.length_cons]; omega
    · split at h
      · exact absurd h (by simp)
      · split at h
        · cases rest with
          | nil => exact absurd h (by simp)
          | cons c1 t1 =>
            dsimp only at h
            split at h
            · injection h with h'; injection h' with h1 h2; subst h2; simp only [List.length_cons]; omega
            · exact absurd h (by simp)
        · split at h
          · cases rest with
            | nil => exact absurd h (by simp)
            | cons c1 t1 =>
              cases t1 with
              | nil => exact absurd h (by simp)
              | cons c2 t2 =>
                dsimp only at h
                split at h
                · injection h with h'; injection h' with h1 h2; subst h2; simp only [List.length_cons]; omega
                · exact absurd h (by simp)
          · split at h
            · cases rest with
              | nil => exact absurd h (by simp)
              | cons c1 t1 =>
                cases t1 with
                | nil => exact absurd h (by simp)
                | cons c2 t2 =>
                  cases t2 with
                  | nil => exact absurd h (by simp)
                  | cons c3 t3 =>
                    dsimp only at h
                    split at h
                    · injection h with h'; injection h' with h1 h2; subst h2; simp only [List.length_cons]; omega
                    · exact absurd h (by simp)
            · exact absurd h (by simp)

theorem utf8DecodeGo_cons (f b : Nat) (rest : List Nat) :
    utf8DecodeGo (f + 1) (b :: rest) =
      (match utf8DecodeOne (b :: rest) with
       | some (v, rest2) => Option.map (fun s => Char.ofNat v :: s) (utf8DecodeGo f rest2)
       | none => none) := rfl

theorem utf8DecodeGo_eq (f : Nat) (bytes : List Nat) (h : bytes.length ≤ f) :
    utf8DecodeGo f bytes = utf8Decode bytes := by
  induction f using Nat.strong_induction_on generalizing bytes with
  | _ f ih =>
    cases bytes with
    | nil => cases f <;> rfl
    | cons b rest =>
      have hf : ∃ f0, f = f0 + 1 := by
        cases f
        · exact absurd h (by simp)
        · exact ⟨_, rfl⟩
      obtain ⟨f0, rfl⟩ := hf
      show _ = utf8DecodeGo (rest.length + 1) (b :: rest)
      rw [utf8DecodeGo_cons, utf8DecodeGo_cons]
      cases hone : utf8DecodeOne (b :: rest) with
      | none => rfl
      | some p =>
        obtain ⟨v, rest2⟩ := p
        have hlen := utf8DecodeOne_length _ _ _ hone
        simp only [List.length_cons] at hlen h
        dsimp only
        rw [ih f0 (by omega) rest2 (by omega), ih rest.length (by omega) rest2 (by omega)]

theorem utf8Decode_step (b : Nat) (rest : List Nat) :
    utf8Decode (b :: rest) =
      (match utf8DecodeOne (b :: rest) with
       | some (v, rest2) => Option.map (fun s => Char.ofNat v :: s) (utf8Decode rest2)
       | none => none) := by
  show utf8DecodeGo (rest.length + 1) (b :: rest) = _
  rw [utf8DecodeGo_cons]
  cases hone : utf8DecodeOne (b :: rest) with
  | none => rfl
  | some p =>
    obtain ⟨v, rest2⟩ := p
    have hlen := utf8DecodeOne_length _ _ _ hone
    simp only [List.length_cons] at hlen
    dsimp only
    rw [utf8DecodeGo_eq rest.length rest2 (by omega)]

theorem utf8Decode_encChar (c : Char) (bs : List Nat) :
    utf8Decode (utf8EncodeChar c ++ bs) = Option.map (fun s => c :: s) (utf8Decode bs) := by
  have hne : ∃ b tail, utf8EncodeChar c = b :: tail := by
    unfold utf8EncodeChar
    by_cases h1 : c.toNat < 128
    · rw [if_pos h1]; exact ⟨_, _, rfl⟩
    · rw [if_neg h1]
      by_cases h2 : c.toNat < 2048
      · rw [if_pos h2]; exact ⟨_, _, rfl⟩
      · rw [if_neg h2]
        by_cases h3 : c.toNat < 65536
        · rw [if_pos h3]; exact ⟨_, _, rfl⟩
        · rw [if_neg h3]; exact ⟨_, _, rfl⟩
  obtain ⟨b, tail, hb⟩ := hne
  have hone : utf8DecodeOne (b :: (tail ++ bs)) = some (c.toNat, bs) := by
    have h := utf8DecodeOne_enc c bs
    rw [hb] at h
    exact h
  rw [hb, List.cons_append, utf8Decode_step, hone]
  dsimp only
  rw [Char.ofNat_toNat]

theorem utf8Decode_utf8Encode (s : List Char) : utf8Decode (utf8Encode s) = some s := by
  induction s with
  | nil => rfl
  | cons c rest ih =>
    show utf8Decode (utf8EncodeChar c ++ utf8Encode rest) = _
    rw [utf8Decode_encChar, ih]
    rfl

theorem utf8Encode_append (a b : List Char) :
    utf8Encode (a ++ b) = utf8Encode a ++ utf8Encode b := by
  induction a with
  | nil => rfl
  | cons c rest ih =>
    show utf8EncodeChar c ++ utf8Encode (rest ++ b) = (utf8EncodeChar c ++ _) ++ _
    rw [ih, List.append_assoc]

theorem escapeParams_append (a b : List Char) :
    escapeParams (a ++ b) = escapeParams a ++ escapeParams b := by
  induction a with
  | nil => rfl
  | cons c rest ih =>
    show escapeChar c ++ escapeParams (rest ++ b) = (escapeChar c ++ _) ++ _
    rw [ih, List.append_assoc]

theorem pdb_cons_ne (b : Nat) (xs : List Nat) (h : b ≠ 37) :
    percentDecodeBytes (b :: xs) = b :: percentDecodeBytes xs := by
  cases xs with
  | nil => simp [percentDecodeBytes, h]
  | cons x1 xs1 =>
    cases xs1 with
    | nil => simp [percentDecodeBytes, h]
    | cons x2 xs2 => simp [percentDecodeBytes, h]

theorem pdb_esc (h1 h2 : Nat) (x y : Nat) (rest : List Nat) (hh1 : hexVal h1 = some x)
    (hh2 : hexVal h2 = some y) :
    percentDecodeBytes (37 :: h1 :: h2 :: rest) = (16 * x + y) :: percentDecodeBytes rest := by
  simp [percentDecodeBytes, hh1, hh2]

theorem pdb_pass (l rest : List Nat) (h : ∀ b ∈ l, b ≠ 37) :
    percentDecodeBytes (l ++ rest) = l ++ percentDecodeBytes rest := by
  induction l with
  | nil => rfl
  | cons b t ih =>
    rw [List.cons_append, pdb_cons_ne b _ (h b (by simp)),
        ih (fun b hb => h b (by simp [hb]))]
    rfl

theorem encChar_no37 (c : Char) (hc : c ≠ '%') : ∀ b ∈ utf8EncodeChar c, b ≠ 37 := by
  have h37 : c.toNat ≠ 37 := by
    intro he
    exact hc (by rw [← Char.ofNat_toNat c, he])
  intro b hb
  unfold utf8EncodeChar at hb
  by_cases h1 : c.toNat < 128
  · rw [if_pos h1] at hb
    simp at hb
    omega
  · rw [if_neg h1] at hb
    by_cases h2 : c.toNat < 2048
    · rw [if_pos h2] at hb
      simp at hb
      rcases hb with h | h <;> omega
    · rw [if_neg h2] at hb
      by_cases h3 : c.toNat < 65536
      · rw [if_pos h3] at hb
        simp at hb
        rcases hb with h | h | h <;> omega
      · rw [if_neg h3] at hb
        simp at hb
        rcases hb with h | h | h | h <;> omega

theorem pdb_escParams (q : List Char) (extra : List Nat) :
    percentDecodeBytes (utf8Encode (escapeParams q) ++ extra) =
      utf8Encode q ++ percentDecodeBytes extra := by
  induction q with
  | nil => rfl
  | cons c rest ih =>
    show percentDecodeBytes (utf8Encode (escapeChar c ++ escapeParams rest) ++ extra) =
      (utf8EncodeChar c ++ utf8Encode rest) ++ percentDecodeBytes extra
    rw [utf8Encode_append, List.append_assoc]
    by_cases hn : c = '\n'
    · subst hn
      rw [show utf8Encode (escapeChar (Char.ofNat 10)) = [37, 48, 65] from rfl]
      rw [show ([37, 48, 65] : List Nat) ++ (utf8Encode (escapeParams rest) ++ extra) =
        37 :: 48 :: 65 :: (utf8Encode (escapeParams rest) ++ extra) from rfl]
      rw [pdb_esc 48 65 0 10 _ rfl rfl, ih]
      rfl
    · by_cases hr : c = '\r'
      · subst hr
        rw [show utf8Encode (escapeChar (Char.ofNat 13)) = [37, 48, 68] from rfl]
        rw [show ([37, 48, 68] : List Nat) ++ (utf8Encode (escapeParams rest) ++ extra) =
          37 :: 48 :: 68 :: (utf8Encode (escapeParams rest) ++ extra) from rfl]
        rw [pdb_esc 48 68 0 13 _ rfl rfl, ih]
        rfl
      · by_cases hp : c = '%'
        · subst hp
          rw [show utf8Encode (escapeChar '%') = [37, 50, 53] from rfl]
          rw [show ([37, 50, 53] : List Nat) ++ (utf8Encode (escapeParams rest) ++ extra) =
            37 :: 50 :: 53 :: (utf8Encode (escapeParams rest) ++ extra) from rfl]
          rw [pdb_esc 50 53 2 5 _ rfl rfl, ih]
          rfl
        · have hch : escapeChar c = [c] := by
            unfold escapeChar
            rw [if_neg hn, if_neg hr, if_neg hp]
          rw [hch]
          rw [show utf8Encode [c] = utf8EncodeChar c ++ [] from rfl, List.append_nil]
          rw [pdb_pass _ _ (encChar_no37 c hp), ih, List.append_assoc]

theorem encode_raw_nil_cmd (p : List Char) :
    encode_request_raw [] (some p) =
      (if (' ' :: escapeParams p).getLast? = some '\\'
       then (' ' :: escapeParams p).dropLast ++ ['%', '5', 'C']
       else ' ' :: escapeParams p) ++ ['\n'] := rfl

theorem requestData_eq (p : List Char) :
    requestData p = fixTrailingBackslash (escapeParams p) := by
  unfold requestData fixTrailingBackslash
  rw [encode_raw_nil_cmd]
  cases hesc : escapeParams p with
  | nil => simp
  | cons e es =>
    rw [List.getLast?_cons_cons]
    by_cases hlast : (e :: es).getLast? = some '\\'
    · rw [if_pos hlast, if_pos hlast]
      rw [show (' ' :: e :: es).dropLast = ' ' :: (e :: es).dropLast from rfl]
      simp
    · rw [if_neg hlast, if_neg hlast]
      show ((e :: es) ++ ['\n']).dropLast = e :: es
      rw [List.dropLast_concat]

theorem roundtrip_core (p : List Char) :
    percentDecode (fixTrailingBackslash (escapeParams p)) = some p := by
  rcases List.eq_nil_or_concat p with rfl | ⟨p0, c, rfl⟩
  · rfl
  · simp only [List.concat_eq_append]
    have h2 : escapeParams (p0 ++ [c]) = escapeParams p0 ++ escapeChar c := by
      rw [escapeParams_append]
      show _ ++ (escapeChar c ++ ([] : List Char)) = _
      rw [List.append_nil]
    rw [h2]
    by_cases hbs : c = '\\'
    · subst hbs
      rw [show escapeChar '\\' = ['\\'] from rfl]
      unfold fixTrailingBackslash
      rw [if_pos (by simp), List.dropLast_concat]
      unfold percentDecode
      rw [utf8Encode_append,
          show utf8Encode ['%', '5', 'C'] = [37, 53, 67] from rfl,
          pdb_escParams p0 [37, 53, 67],
          show percentDecodeBytes [37, 53, 67] = [92] from by decide,
          show ([92] : List Nat) = utf8Encode ['\\'] from rfl,
          ← utf8Encode_append, utf8Decode_utf8Encode]
    · have hlast : (escapeParams p0 ++ escapeChar c).getLast? ≠ some '\\' := by
        unfold escapeChar
        by_cases hn : c = '\n'
        · rw [if_pos hn]
          simp
        · rw [if_neg hn]
          by_cases hr : c = '\r'
          · rw [if_pos hr]
            simp
          · rw [if_neg hr]
            by_cases hp : c = '%'
            · rw [if_pos hp]
              simp
            · rw [if_neg hp]
              simp [hbs]
      unfold fixTrailingBackslash
      rw [if_neg hlast]
      unfold percentDecode
      rw [← h2]
      have h3 := pdb_escParams (p0 ++ [c]) []
      rw [List.append_nil] at h3
      rw [h3, show percentDecodeBytes [] = [] from rfl, List.append_nil,
          utf8Decode_utf8Encode]

theorem roundtrip_requestData (p : List Char) :
    percentDecode (requestData p) = some p := by
  rw [requestData_eq]
  exact roundtrip_core p


/-! The claims. -/

/-- Claim C1 (amended): every input line free of interior line-feeds on
which the u32 error-code parse does not overflow is given by
read::server_response exactly the verdict of the spec section 4.2 table:
the corresponding variant with its fields as the table specifies when one
of the six shapes matches, and a decode failure otherwise.  The original
claim, without the overflow proviso, is refuted by
claim_C1_counterexample. -/
theorem claim_C1_parser_refines_spec_table (l : List Char) (h : LineOk l)
    (hof : errOverflow l = false) : server_response l = specVerdict l :=
  server_matches_spec l h hof

/-- Witness: claim C1's theorem applied to the concrete line "OK\n". -/
theorem claim_C1_refines_witness :
    LineOk (['O', 'K', '\n']) ∧ errOverflow (['O', 'K', '\n']) = false ∧
      server_response (['O', 'K', '\n']) = specVerdict (['O', 'K', '\n']) :=
  ⟨by decide, by decide,
    claim_C1_parser_refines_spec_table (['O', 'K', '\n']) (by decide) (by decide)⟩

/-- Counterexample to claim C1 as stated: the line "ERR 4294967296\n"
matches the ERR row of the spec section 4.2 table (its code, truncated to
16 bits, is 0), yet the parser panics on it instead of returning the Err
variant. -/
theorem claim_C1_counterexample :
    LineOk (['E', 'R', 'R', ' ', '4', '2', '9', '4', '9', '6', '7', '2', '9', '6', '\n']) ∧
    specVerdict (['E', 'R', 'R', ' ', '4', '2', '9', '4', '9', '6', '7', '2', '9', '6', '\n']) =
      PResult.ok [] (Response.Err 0 none) ∧
    server_response (['E', 'R', 'R', ' ', '4', '2', '9', '4', '9', '6', '7', '2', '9', '6', '\n']) =
      PResult.fatal := by
  refine ⟨by decide, by decide, by decide⟩

/-- Claim C4 (amended): dropping a Connection sends exactly one
best-effort BYE request, discards its outcome whatever it is, and
surfaces no error; it takes no other teardown step.  The original
claim's grace-period wait and forcible kill are refuted by
claim_C4_counterexample: the struct owns no child-process handle, so
the drop implementation cannot wait on or kill the child. -/
theorem claim_C4_drop_sends_bye_only (outcome : ReadOutcome) :
    connectionDrop outcome =
      ([TeardownStep.sendRequest (['B', 'Y', 'E']) none], none) := rfl

/-- Counterexample to claim C4 as stated: the teardown step list is the
single BYE request — it contains no waitWithGrace and no kill step. -/
theorem claim_C4_counterexample :
    (connectionDrop (ReadOutcome.ok none)).1 =
      [TeardownStep.sendRequest (['B', 'Y', 'E']) none] ∧
    (connectionDrop (ReadOutcome.ok none)).2 = none := by
  refine ⟨by decide, by decide⟩

/-- Claim C5: Error::from_parts maps code 62 to Timeout, 99 to
Cancelled, and every other code — 114 included — to a generic GPG error
preserving the exact code and optional description. -/
theorem claim_C5_error_classifier (code : Nat) (desc : Option (List Char))
    (h62 : code ≠ 62) (h99 : code ≠ 99) :
    Error.from_parts 62 desc = Error.Timeout ∧
    Error.from_parts 99 desc = Error.Cancelled ∧
    Error.from_parts 114 desc = Error.Gpg { code := 114, description := desc } ∧
    Error.from_parts code desc = Error.Gpg { code := code, description := desc } := by
  refine ⟨rfl, rfl, rfl, ?_⟩
  unfold Error.from_parts GPG_ERR_TIMEOUT GPG_ERR_CANCELED
  rw [if_neg h62, if_neg h99]

/-- Witness: claim C5's theorem applied to code 1 with a description. -/
theorem claim_C5_classifier_witness :
    Error.from_parts 62 (some (['o', 'o', 'p', 's'])) = Error.Timeout ∧
    Error.from_parts 99 (some (['o', 'o', 'p', 's'])) = Error.Cancelled ∧
    Error.from_parts 114 (some (['o', 'o', 'p', 's'])) =
      Error.Gpg { code := 114, description := some (['o', 'o', 'p', 's']) } ∧
    Error.from_parts 1 (some (['o', 'o', 'p', 's'])) =
      Error.Gpg { code := 1, description := some (['o', 'o', 'p', 's']) } :=
  claim_C5_error_classifier 1 (some (['o', 'o', 'p', 's'])) (by decide) (by decide)

/-- Claim C8: encode_request fails fatally (the length assert, modelled
as none) exactly when the encoded line, terminator included, is over
1000 UTF-8 bytes; within the limit it returns the line unchanged —
never truncated or split. -/
theorem claim_C8_length_guard (command : List Char) (parameters : Option (List Char)) :
    (1000 < utf8Len (encode_request_raw command parameters) →
      encode_request command parameters = none) ∧
    (utf8Len (encode_request_raw command parameters) ≤ 1000 →
      encode_request command parameters =
        some (encode_request_raw command parameters)) := by
  unfold encode_request
  constructor
  · intro h
    rw [if_neg (by omega)]
  · intro h
    rw [if_pos h]

/-- Claim C10: read::server_response panics (a failed expect inside the
error-code closure) on every ERR line whose digit run exceeds the u32
maximum, "ERR 4294967296\n" among them, instead of returning a decode
error. -/
theorem claim_C10_err_overflow_panics (l : List Char)
    (hne : (l.takeWhile Char.isDigit).isEmpty = false)
    (hof : 4294967295 < digitsToNat (l.takeWhile Char.isDigit)) :
    server_response (['E', 'R', 'R', ' '] ++ l) = PResult.fatal := by
  show server_response ('E' :: 'R' :: 'R' :: ' ' :: l) = PResult.fatal
  rw [server_on_err, errTail_fatal l (by simp [hne]) hof]

/-- Witness: claim C10's theorem applied to the line "ERR 4294967296\n". -/
theorem claim_C10_overflow_witness :
    ((['4', '2', '9', '4', '9', '6', '7', '2', '9', '6', '\n'] : List Char).takeWhile
        Char.isDigit).isEmpty = false ∧
    4294967295 < digitsToNat ((['4', '2', '9', '4', '9', '6', '7', '2', '9', '6', '\n']
        : List Char).takeWhile Char.isDigit) ∧
    server_response (['E', 'R', 'R', ' '] ++
        ['4', '2', '9', '4', '9', '6', '7', '2', '9', '6', '\n']) = PResult.fatal :=
  ⟨by decide, by decide,
    claim_C10_err_overflow_panics
      (['4', '2', '9', '4', '9', '6', '7', '2', '9', '6', '\n']) (by decide) (by decide)⟩

/-- Claim C9: for an ERR-shaped suffix (a nonempty leading digit run
within u32 range), read::gpg_error_code consumes exactly the digit run
and produces its value truncated to the low 16 bits, and the full
code-then-tail piece of the ERR alternative yields that code paired with
the optional description found after a further space (the specErrTail
characterization). -/
theorem claim_C9_err_code_truncation (l : List Char) (h : LineOk l)
    (hne : (l.takeWhile Char.isDigit).isEmpty = false)
    (hof : digitsToNat (l.takeWhile Char.isDigit) ≤ 2 ^ 32 - 1) :
    gpg_error_code l =
      PResult.ok (l.dropWhile Char.isDigit)
        (digitsToNat (l.takeWhile Char.isDigit) % 2 ^ 16) ∧
    terminated (ppair gpg_error_code tailOptInfo) line_ending l =
      (match specErrTail l with
       | some cd => PResult.ok [] cd
       | none => PResult.fail) := by
  have hof' : digitsToNat (l.takeWhile Char.isDigit) ≤ 4294967295 := by omega
  constructor
  · rw [gpg_error_code_eq, if_neg (by simp [hne]), if_pos hof']
    norm_num
  · exact errTail_eq l h hof'

/-- Witness: claim C9's theorem applied to the suffix "62 timed out\n"
of the line "ERR 62 timed out\n". -/
theorem claim_C9_truncation_witness :
    LineOk (['6', '2', ' ', 't', 'o', '\n']) ∧
    (((['6', '2', ' ', 't', 'o', '\n'] : List Char)).takeWhile Char.isDigit).isEmpty
      = false ∧
    digitsToNat ((['6', '2', ' ', 't', 'o', '\n'] : List Char).takeWhile Char.isDigit)
      ≤ 2 ^ 32 - 1 ∧
    (gpg_error_code (['6', '2', ' ', 't', 'o', '\n']) =
      PResult.ok ((['6', '2', ' ', 't', 'o', '\n'] : List Char).dropWhile Char.isDigit)
        (digitsToNat ((['6', '2', ' ', 't', 'o', '\n'] : List Char).takeWhile
          Char.isDigit) % 2 ^ 16) ∧
    terminated (ppair gpg_error_code tailOptInfo) line_ending
        (['6', '2', ' ', 't', 'o', '\n']) =
      (match specErrTail (['6', '2', ' ', 't', 'o', '\n']) with
       | some cd => PResult.ok [] cd
       | none => PResult.fail)) :=
  ⟨by decide, by decide, by decide,
    claim_C9_err_code_truncation (['6', '2', ' ', 't', 'o', '\n'])
      (by decide) (by decide) (by decide)⟩

theorem encode_raw_decomp (command p : List Char) :
    encode_request_raw command (some p) =
      command ++ ' ' :: (fixTrailingBackslash (escapeParams p) ++ ['\n']) := by
  unfold encode_request_raw fixTrailingBackslash
  dsimp only
  cases hesc : escapeParams p with
  | nil =>
    have hcond : ¬ (command ++ [' ']).getLast? = some '\\' := by
      rw [show (command ++ [' ']).getLast? = some ' ' from by
        rw [List.getLast?_append]; rfl]
      decide
    rw [if_neg hcond, if_neg (by decide : ¬ (List.getLast? ([] : List Char) = some '\\'))]
    simp
  | cons e es =>
    have hl : (command ++ ' ' :: e :: es).getLast? = (e :: es).getLast? := by
      rw [List.getLast?_append, List.getLast?_cons_cons]
      cases h2 : (e :: es).getLast? with
      | none => exact absurd h2 (by simp)
      | some v => rfl
    rw [hl]
    by_cases hlast : (e :: es).getLast? = some '\\'
    · rw [if_pos hlast, if_pos hlast]
      rw [List.dropLast_append_of_ne_nil _ (by simp)]
      rw [show (' ' :: e :: es).dropLast = ' ' :: (e :: es).dropLast from rfl]
      simp
    · rw [if_neg hlast, if_neg hlast]
      simp

theorem noLF_escapeChar (c : Char) : '\n' ∉ escapeChar c := by
  unfold escapeChar
  by_cases hn : c = '\n'
  · rw [if_pos hn]; decide
  · rw [if_neg hn]
    by_cases hr : c = '\r'
    · rw [if_pos hr]; decide
    · rw [if_neg hr]
      by_cases hp : c = '%'
      · rw [if_pos hp]; decide
      · rw [if_neg hp]
        simp only [List.mem_singleton]
        exact fun e => hn e.symm

theorem noLF_escapeParams (p : List Char) : '\n' ∉ escapeParams p := by
  induction p with
  | nil => simp [escapeParams]
  | cons c rest ih =>
    show '\n' ∉ escapeChar c ++ escapeParams rest
    rw [List.mem_append]
    rintro (h | h)
    · exact noLF_escapeChar c h
    · exact ih h

theorem noLF_fixTrailing (e : List Char) (h : '\n' ∉ e) :
    '\n' ∉ fixTrailingBackslash e := by
  unfold fixTrailingBackslash
  by_cases hlast : e.getLast? = some '\\'
  · rw [if_pos hlast]
    rw [List.mem_append]
    rintro (h2 | h2)
    · exact h ((List.dropLast_sublist e).subset h2)
    · simp at h2
  · rw [if_neg hlast]
    exact h

/-- Claim C7: for every line-feed-free command keyword and every
parameter string, encode_request builds one line: the command, a space,
the escaped parameter text and a single terminating line-feed (so the
line-feed is the last character and occurs exactly once); the escape
table rewrites exactly line-feed, carriage-return and the percent sign,
passes every other character through, and a trailing backslash left by
escaping is itself replaced by its percent escape. -/
theorem claim_C7_encoder_shape (command p : List Char) (hcmd : '\n' ∉ command) :
    encode_request_raw command (some p) =
      command ++ ' ' :: (fixTrailingBackslash (escapeParams p) ++ ['\n']) ∧
    (encode_request_raw command (some p)).getLast? = some '\n' ∧
    (encode_request_raw command (some p)).count '\n' = 1 ∧
    escapeChar ('\n') = ['%', '0', 'A'] ∧
    escapeChar ('\r') = ['%', '0', 'D'] ∧
    escapeChar ('%') = ['%', '2', '5'] ∧
    (∀ c : Char, c ≠ '\n' → c ≠ '\r' → c ≠ '%' → escapeChar c = [c]) ∧
    ((escapeParams p).getLast? = some '\\' →
      fixTrailingBackslash (escapeParams p) =
        (escapeParams p).dropLast ++ ['%', '5', 'C']) ∧
    ((escapeParams p).getLast? ≠ some '\\' →
      fixTrailingBackslash (escapeParams p) = escapeParams p) := by
  have hdecomp := encode_raw_decomp command p
  have hfix : '\n' ∉ fixTrailingBackslash (escapeParams p) :=
    noLF_fixTrailing _ (noLF_escapeParams p)
  refine ⟨hdecomp, ?_, ?_, rfl, rfl, rfl, ?_, ?_, ?_⟩
  · rw [hdecomp]
    rw [show command ++ ' ' :: (fixTrailingBackslash (escapeParams p) ++ ['\n']) =
      (command ++ ' ' :: fixTrailingBackslash (escapeParams p)) ++ ['\n'] from by simp]
    rw [List.getLast?_append]
    rfl
  · rw [hdecomp, List.count_append, List.count_cons, List.count_append]
    rw [List.count_eq_zero.mpr hcmd, List.count_eq_zero.mpr hfix]
    decide
  · intro c hn hr hp
    unfold escapeChar
    rw [if_neg hn, if_neg hr, if_neg hp]
  · intro hlast
    unfold fixTrailingBackslash
    rw [if_pos hlast]
  · intro hlast
    unfold fixTrailingBackslash
    rw [if_neg hlast]

/-- Witness: claim C7's theorem applied to the command "GETPIN" and the
parameter "a\\". -/
theorem claim_C7_shape_witness :
    ('\n' ∉ (['G', 'E', 'T', 'P', 'I', 'N'] : List Char)) ∧
    (encode_request_raw (['G', 'E', 'T', 'P', 'I', 'N']) (some (['a', '\\'])) =
      ['G', 'E', 'T', 'P', 'I', 'N'] ++ ' ' ::
        (fixTrailingBackslash (escapeParams (['a', '\\'])) ++ ['\n']) ∧
    (encode_request_raw (['G', 'E', 'T', 'P', 'I', 'N'])
        (some (['a', '\\']))).getLast? = some '\n' ∧
    (encode_request_raw (['G', 'E', 'T', 'P', 'I', 'N'])
        (some (['a', '\\']))).count '\n' = 1 ∧
    escapeChar ('\n') = ['%', '0', 'A'] ∧
    escapeChar ('\r') = ['%', '0', 'D'] ∧
    escapeChar ('%') = ['%', '2', '5'] ∧
    (∀ c : Char, c ≠ '\n' → c ≠ '\r' → c ≠ '%' → escapeChar c = [c]) ∧
    ((escapeParams (['a', '\\'])).getLast? = some '\\' →
      fixTrailingBackslash (escapeParams (['a', '\\'])) =
        (escapeParams (['a', '\\'])).dropLast ++ ['%', '5', 'C']) ∧
    ((escapeParams (['a', '\\'])).getLast? ≠ some '\\' →
      fixTrailingBackslash (escapeParams (['a', '\\'])) = escapeParams (['a', '\\']))) :=
  ⟨by decide, claim_C7_encoder_shape (['G', 'E', 'T', 'P', 'I', 'N']) (['a', '\\'])
    (by decide)⟩

/-- Claim C6: decoding the data portion of an encoded request line with
the percent-decoding used for D lines recovers the original parameter
text, for every Unicode parameter string; and the four concrete
encodings of the claim hold literally (empty command keyword). -/
theorem claim_C6_roundtrip :
    (∀ p : List Char, percentDecode (requestData p) = some p) ∧
    encode_request [] (some (['b', 'a', 'r', '\n', 'b', 'a', 'z'])) =
      some ([' ', 'b', 'a', 'r', '%', '0', 'A', 'b', 'a', 'z', '\n']) ∧
    encode_request [] (some (['b', 'a', 'r', '\r', 'b', 'a', 'z'])) =
      some ([' ', 'b', 'a', 'r', '%', '0', 'D', 'b', 'a', 'z', '\n']) ∧
    encode_request [] (some (['b', 'a', 'r', '\r', '\n', 'b', 'a', 'z'])) =
      some ([' ', 'b', 'a', 'r', '%', '0', 'D', '%', '0', 'A', 'b', 'a', 'z', '\n']) ∧
    encode_request [] (some (['f', 'o', 'o', '\\'])) =
      some ([' ', 'f', 'o', 'o', '%', '5', 'C', '\n']) :=
  ⟨roundtrip_requestData, by decide, by decide, by decide, by decide⟩

theorem read_go_forward_fst (pre tail : List (List Char)) (data : Option (List Char))
    (h : ∀ l ∈ pre, isForward l = true) :
    (read_response_go (pre ++ tail) data).1 =
      (read_response_go tail (pre.foldl accumStep data)).1 := by
  obtain ⟨tr0, h2⟩ := read_go_forward pre tail data h
  rw [h2]

theorem read_go_data_fst (line : List Char) (rest : List (List Char))
    (data : Option (List Char)) (r d dec : List Char)
    (h : server_response line = PResult.ok r (Response.DataLine d))
    (hd : percentDecode d = some dec) :
    (read_response_go (line :: rest) data).1 =
      (read_response_go rest (some (data.getD [] ++ dec))).1 := by
  rw [read_go_cons, h]
  dsimp only
  rw [hd]

/-- Claim C2: a response cycle of two D lines and then OK, with any
interleaving of comment and information lines (which only get logged),
accumulates exactly the percent-decoded first data line followed by the
percent-decoded second, and returns that single buffer. -/
theorem claim_C2_aggregation (pre1 pre2 pre3 : List (List Char))
    (l1 l2 lok r1 r2 rok d1 d2 dec1 dec2 : List Char) (info : Option (List Char))
    (hp1 : ∀ l ∈ pre1, isIgnorable l = true)
    (hp2 : ∀ l ∈ pre2, isIgnorable l = true)
    (hp3 : ∀ l ∈ pre3, isIgnorable l = true)
    (h1 : server_response l1 = PResult.ok r1 (Response.DataLine d1))
    (hd1 : percentDecode d1 = some dec1)
    (h2 : server_response l2 = PResult.ok r2 (Response.DataLine d2))
    (hd2 : percentDecode d2 = some dec2)
    (hok : server_response lok = PResult.ok rok (Response.Ok info)) :
    (read_response (pre1 ++ l1 :: (pre2 ++ l2 :: (pre3 ++ [lok])))).1 =
      ReadOutcome.ok (some (dec1 ++ dec2)) := by
  unfold read_response
  rw [read_go_forward_fst pre1 _ none (fun l hl => isIgnorable_isForward l (hp1 l hl)),
    foldl_accum_ignorable pre1 none hp1,
    read_go_data_fst l1 _ none r1 d1 dec1 h1 hd1]
  rw [show (none : Option (List Char)).getD [] ++ dec1 = dec1 from by simp]
  rw [read_go_forward_fst pre2 _ (some dec1)
      (fun l hl => isIgnorable_isForward l (hp2 l hl)),
    foldl_accum_ignorable pre2 (some dec1) hp2,
    read_go_data_fst l2 _ (some dec1) r2 d2 dec2 h2 hd2]
  rw [show (some dec1).getD [] ++ dec2 = dec1 ++ dec2 from by simp]
  rw [read_go_forward_fst pre3 _ (some (dec1 ++ dec2))
      (fun l hl => isIgnorable_isForward l (hp3 l hl)),
    foldl_accum_ignorable pre3 (some (dec1 ++ dec2)) hp3,
    read_go_ok_step lok [] (some (dec1 ++ dec2)) rok info hok]

/-- Witness: claim C2's theorem applied to the cycle
"# c\n", "D f\n", "D %25\n", "S k v\n", "OK\n". -/
theorem claim_C2_aggregation_witness :
    (read_response ([['#', ' ', 'c', '\n']] ++ ['D', ' ', 'f', '\n'] ::
        ([] ++ ['D', ' ', '%', '2', '5', '\n'] ::
          ([[ 'S', ' ', 'k', ' ', 'v', '\n']] ++ [['O', 'K', '\n']])))).1 =
      ReadOutcome.ok (some (['f'] ++ ['%'])) :=
  claim_C2_aggregation [['#', ' ', 'c', '\n']] [] [['S', ' ', 'k', ' ', 'v', '\n']]
    (['D', ' ', 'f', '\n']) (['D', ' ', '%', '2', '5', '\n']) (['O', 'K', '\n'])
    [] [] [] (['f']) (['%', '2', '5']) (['f']) (['%']) none
    (by decide) (by decide) (by decide)
    (by decide) (by decide) (by decide) (by decide) (by decide)

/-- Claim C3: a cycle that ends with an ERR line (after any number of
consumed non-terminal lines) returns the classified error, never the
accumulated data; and whenever data had been accumulated from earlier D
lines, an explicit zeroization of it appears in the event trace before
the call returns. -/
theorem claim_C3_err_destroys_secret (pre rest : List (List Char))
    (lerr r : List Char) (code : Nat) (desc : Option (List Char))
    (hpre : ∀ l ∈ pre, isForward l = true)
    (herr : server_response lerr = PResult.ok r (Response.Err code desc)) :
    (read_response (pre ++ lerr :: rest)).1 =
      ReadOutcome.err (Error.from_parts code desc) ∧
    (∀ d : List Char, accumAfter pre = some d →
      Ev.zeroizeData ∈ (read_response (pre ++ lerr :: rest)).2) := by
  unfold read_response
  obtain ⟨tr0, heq⟩ := read_go_forward pre (lerr :: rest) none hpre
  constructor
  · rw [heq, read_go_err_step lerr rest _ r code desc herr]
  · intro d hd
    unfold accumAfter at hd
    rw [heq, read_go_err_step lerr rest _ r code desc herr, hd]
    simp

/-- Witness: claim C3's theorem applied to the cycle
"D x\n", "ERR 99\n". -/
theorem claim_C3_destroys_witness :
    ((read_response ([['D', ' ', 'x', '\n']] ++ ['E', 'R', 'R', ' ', '9', '9', '\n'] :: [])).1 =
      ReadOutcome.err (Error.from_parts 99 none) ∧
    (∀ d : List Char, accumAfter [['D', ' ', 'x', '\n']] = some d →
      Ev.zeroizeData ∈
        (read_response ([['D', ' ', 'x', '\n']] ++
          ['E', 'R', 'R', ' ', '9', '9', '\n'] :: [])).2)) :=
  claim_C3_err_destroys_secret [['D', ' ', 'x', '\n']] []
    (['E', 'R', 'R', ' ', '9', '9', '\n']) [] 99 none (by decide) (by decide)

end Pinentry
